import Mathlib

/-!
Shallow embedding of the JSON parser from `src/json/combine/src/main.rs`
(a benchmark built on the `combine` parser-combinator library).

Modelling choices, recorded once here:

* A parser is a function from a state (absolute position + remaining
  characters) to a `Reply`, which mirrors combine's four-way result
  `ConsumedOk / EmptyOk / ConsumedErr / EmptyErr` as an `ok`/`err`
  constructor together with a `consumed : Bool` flag.
* Errors carry the failure position and the list of `expected` labels,
  mirroring combine's `ParseError` (position + `Expected` items).  A
  single-character token contributes its character as a one-character
  label, string tokens and `.expected(..)` annotations contribute their
  text.
* Rust `f64` arithmetic is idealised as exact rational (`ℚ`) arithmetic.
  All numeric claims below involve values that are exact in both.
  Note `(-0.0 : f64) >= 0.0` holds in Rust and `-0 = 0` in `ℚ`, so the
  sign-application branch of `number` behaves identically in both.
* Rust `i64` arithmetic (the digit fold of `integer`) is modelled with
  explicit wrapping modulo `2 ^ 64` (release-mode semantics).
* `combine`'s `many`/`sep_by` iterate their argument parser; the model
  uses explicit fuel (`remaining input length + 1`).  Every repeated
  parser below consumes at least one character on success, so the fuel
  is never exhausted on the fuelled path; the fuel-0 branch is an
  unreachable modelling artifact that fails without consuming input.
* The recursion of `json_value_` through `object`/`array` is likewise
  fuelled; entering a nested value always consumes at least one
  character first, so fuel `input length + 1` is never exhausted.
* `spaces()` skips `char::is_whitespace` characters; the model uses the
  ASCII whitespace set (space, tab, LF, CR), which covers every input
  appearing in the specification's claims.
-/

namespace JsonCombine

/-- Whitespace predicate used by `spaces()` (ASCII subset of Rust's
`char::is_whitespace`). -/
def isWS (c : Char) : Bool :=
  c == ' ' || c == '\t' || c == '\n' || c == '\r'

/-- Parser state: number of characters consumed so far and the remaining
input. -/
structure PState where
  pos : Nat
  rest : List Char
deriving DecidableEq, Repr

/-- Structured parse error: failure position and the expected-token
labels, mirroring combine's `ParseError`. -/
structure PError where
  pos : Nat
  labels : List String
deriving DecidableEq, Repr

/-- Result of running a parser: combine's
`ConsumedOk / EmptyOk / ConsumedErr / EmptyErr`, with the
consumed-input distinction as a `Bool` flag. -/
inductive Reply (α : Type) where
  | ok (consumed : Bool) (a : α) (s : PState)
  | err (consumed : Bool) (e : PError)
deriving DecidableEq, Repr

def Parser (α : Type) : Type := PState → Reply α

/-- Error merging of combine's `ParseError::merge`: keep the error at
the farther position; at equal positions take the union of labels. -/
def mergeE (e₁ e₂ : PError) : PError :=
  if e₁.pos < e₂.pos then e₂
  else if e₂.pos < e₁.pos then e₁
  else ⟨e₁.pos, e₁.labels ++ e₂.labels⟩

/-- `p.map(f)`. -/
def mapP (f : α → β) (p : Parser α) : Parser β := fun s =>
  match p s with
  | .ok c a s' => .ok c (f a) s'
  | .err c e => .err c e

/-- `p.and(q)`: sequence, returning the pair; a failure of `q` after `p`
consumed input is a consumed failure (committed choice). -/
def andP (p : Parser α) (q : Parser β) : Parser (α × β) := fun s =>
  match p s with
  | .ok c a s' =>
    (match q s' with
     | .ok c' b s'' => .ok (c || c') (a, b) s''
     | .err c' e => .err (c || c') e)
  | .err c e => .err c e

/-- `p.with(q)`: sequence, keeping the right result. -/
def withP (p : Parser α) (q : Parser β) : Parser β :=
  mapP Prod.snd (andP p q)

/-- `p.skip(q)`: sequence, keeping the left result. -/
def skipP (p : Parser α) (q : Parser β) : Parser α :=
  mapP Prod.fst (andP p q)

/-- `p.or(q)`: try `q` only when `p` failed without consuming input;
on two empty failures the errors are merged. -/
def orElseP (p q : Parser α) : Parser α := fun s =>
  match p s with
  | .err false e₁ =>
    (match q s with
     | .err false e₂ => .err false (mergeE e₁ e₂)
     | r => r)
  | r => r

/-- `p.expected(l)`: on an empty failure replace the expected labels by
`l`; consumed failures and successes pass through unchanged. -/
def expectedP (l : String) (p : Parser α) : Parser α := fun s =>
  match p s with
  | .err false e => .err false ⟨e.pos, [l]⟩
  | r => r

/-- `optional(p)`: `None` on an empty failure, propagating consumed
failures. -/
def optionalP (p : Parser α) : Parser (Option α) := fun s =>
  match p s with
  | .ok c a s' => .ok c (some a) s'
  | .err true e => .err true e
  | .err false _ => .ok false none s

/-- `satisfy(pred)`: one character matching `pred`; fails without
consuming otherwise (no expected label, as in combine). -/
def satisfyP (pred : Char → Bool) : Parser Char := fun s =>
  match s.rest with
  | [] => .err false ⟨s.pos, []⟩
  | c :: cs =>
    if pred c then .ok true c ⟨s.pos + 1, cs⟩ else .err false ⟨s.pos, []⟩

/-- `char(c)`: `satisfy(|t| t == c).expected(c)`. -/
def charP (c : Char) : Parser Char :=
  expectedP (String.mk [c]) (satisfyP (fun x => x == c))

/-- `digit()`: an ASCII digit. -/
def digitP : Parser Char :=
  expectedP "digit" (satisfyP Char.isDigit)

/-- Length of the longest common prefix of the expected token list and
the input (helper for the `string` token parser). -/
def matchLen : List Char → List Char → Nat
  | [], _ => 0
  | _ :: _, [] => 0
  | c :: ts, d :: rs => if c == d then matchLen ts rs + 1 else 0

/-- `string(t)`: match the characters of `t` in sequence; a mismatch at
the first character is an empty failure labelled with `t`, later
mismatches are consumed failures. -/
def pstringP (t : List Char) : Parser Unit := fun s =>
  let k := matchLen t s.rest
  if k = t.length then .ok (!(t.isEmpty)) () ⟨s.pos + k, s.rest.drop k⟩
  else .err (!(k == 0)) ⟨s.pos + k, if k = 0 then [String.mk t] else []⟩

/-- Count of leading whitespace characters (the run `spaces()` skips). -/
def wsCount : List Char → Nat
  | [] => 0
  | c :: cs => if isWS c then wsCount cs + 1 else 0

/-- `spaces()`: skip zero or more whitespace characters; never fails. -/
def spacesP : Parser Unit := fun s =>
  let n := wsCount s.rest
  .ok (!(n == 0)) () ⟨s.pos + n, s.rest.drop n⟩

/-- `lex(p)`: run `p`, then unconditionally consume trailing
whitespace. -/
def lexP (p : Parser α) : Parser α := skipP p spacesP

/-- Fuelled worker for `many(p)`.  The fuel-0 branch is unreachable for
the argument parsers used below (they consume on success). -/
def manyAux (p : Parser α) : Nat → PState → Reply (List α)
  | 0, s => .err false ⟨s.pos, []⟩
  | fuel + 1, s =>
    match p s with
    | .err true e => .err true e
    | .err false _ => .ok false [] s
    | .ok c a s' =>
      match manyAux p fuel s' with
      | .ok c' as s'' => .ok (c || c') (a :: as) s''
      | .err c' e => .err (c || c') e

/-- `many(p)`: zero or more `p`, stopping at the first empty failure and
propagating consumed failures. -/
def manyP (p : Parser α) : Parser (List α) := fun s =>
  manyAux p (s.rest.length + 1) s

/-- `many1(p)`: one or more `p`. -/
def many1P (p : Parser α) : Parser (List α) :=
  mapP (fun x => x.1 :: x.2) (andP p (manyP p))

/-- `sep_by(p, sep)`: zero or more `p` separated by `sep`; an empty
failure of the first `p` yields the empty list, and a failure after a
consumed separator is a consumed failure. -/
def sepByP (p : Parser α) (sep : Parser β) : Parser (List α) := fun s =>
  match p s with
  | .err false _ => .ok false [] s
  | .err true e => .err true e
  | .ok c a s' =>
    match manyP (withP sep p) s' with
    | .ok c' as s'' => .ok (c || c') (a :: as) s''
    | .err c' e => .err (c || c') e

/-- `between(open, close, p)` = `open.with(p).skip(close)`. -/
def betweenP (o : Parser α) (c : Parser β) (p : Parser γ) : Parser γ :=
  skipP (withP o p) c

/-- Wrap to signed 64-bit two's-complement range (Rust release-mode
`i64` overflow semantics). -/
def wrap64 (n : Int) : Int :=
  ((n + 2 ^ 63) % 2 ^ 64) - 2 ^ 63

/-- The digit fold of `integer`: `n = n * 10 + (c - '0')` over `i64`. -/
def intFold (ds : List Char) : Int :=
  ds.foldl (fun n c => wrap64 (n * 10 + ((c.toNat : Int) - 48))) 0

/-- `integer()`: a lexed run of one or more digits folded to an
integer, labelled `integer` on empty failure. -/
def integerP : Parser Int :=
  expectedP "integer" (mapP intFold (lexP (many1P digitP)))

/-- The fractional-digit fold of `number`: each successive digit first
divides the running magnitude by 10, then adds `digit * magnitude`
(exact in `ℚ`; `f64` in the source). -/
def fracFold (ds : List Char) : ℚ :=
  (ds.foldl
    (fun acc d => (acc.1 + ((d.toNat - 48 : Nat) : ℚ) * (acc.2 / 10), acc.2 / 10))
    ((0 : ℚ), (1 : ℚ))).1

/-- `10.0f64.powi(e)` idealised in `ℚ`. -/
def qpow10 (e : Int) : ℚ :=
  if 0 ≤ e then (10 : ℚ) ^ e.toNat else 1 / (10 : ℚ) ^ (-e).toNat

/-- The integer-part alternative of `number`:
`char('0').map(|_| 0.0).or(integer().map(|x| x as f64))`. -/
def intPartP : Parser ℚ :=
  orElseP (mapP (fun _ => (0 : ℚ)) (charP '0'))
    (mapP (fun x : Int => (x : ℚ)) integerP)

/-- The fractional parser of `number`: `many(digit)` folded by
`fracFold`. -/
def fractionalP : Parser ℚ :=
  mapP fracFold (manyP digitP)

/-- The exponent parser of `number`:
`satisfy(e|E).with(optional(char('-')).and(integer()))`. -/
def expPartP : Parser (Option Char × Int) :=
  withP (satisfyP (fun c => c == 'e' || c == 'E'))
    (andP (optionalP (charP '-')) integerP)

/-- `number()`: optional sign, integer part, fraction after an optional
dot, optional exponent; the whole token is lexed and labelled
`number` on empty failure. -/
def numberP : Parser ℚ :=
  expectedP "number" (lexP
    (mapP
      (fun x =>
        match x.2 with
        | some (sign, e) => x.1 * qpow10 (if sign.isSome then -e else e)
        | none => x.1)
      (andP
        (mapP (fun x => if x.1 ≥ 0 then x.1 + x.2 else x.1 - x.2)
          (andP
            (mapP (fun x => if x.1.isSome then -x.2 else x.2)
              (andP (optionalP (charP '-')) intPartP))
            (withP (optionalP (charP '.')) fractionalP)))
        (optionalP expPartP))))

/-- The escape table of `json_char`'s `satisfy_map`. -/
def escMap (c : Char) : Option Char :=
  match c with
  | '"' => some '"'
  | '\\' => some '\\'
  | '/' => some '/'
  | 'b' => some '\x08'
  | 'f' => some '\x0c'
  | 'n' => some '\n'
  | 'r' => some '\r'
  | 't' => some '\t'
  | _ => none

/-- `json_char()`: any character; after a backslash the escape table
applies (failure there is a consumed failure, the backslash being
consumed); a bare `"` is a zero-width empty failure signalling the end
of the string body. -/
def jsonCharP : Parser Char := fun s =>
  match s.rest with
  | [] => .err false ⟨s.pos, []⟩
  | c :: cs =>
    if c == '\\' then
      match cs with
      | [] => .err true ⟨s.pos + 1, []⟩
      | d :: ds =>
        match escMap d with
        | some r => .ok true r ⟨s.pos + 2, ds⟩
        | none => .err true ⟨s.pos + 1, []⟩
    else if c == '"' then .err false ⟨s.pos, []⟩
    else .ok true c ⟨s.pos + 1, cs⟩

/-- `json_string()`: `between(char('"'), lex(char('"')),
many(json_char()))`, labelled `string`. -/
def jsonStringP : Parser String :=
  expectedP "string"
    (mapP String.mk
      (betweenP (charP '"') (lexP (charP '"')) (manyP jsonCharP)))

/-- The parsed `Value` tree.  `obj` holds the association list produced
by folding map-inserts over the fields in source order (the `HashMap`
of the source, keyed without duplicates). -/
inductive Value where
  | num : ℚ → Value
  | str : String → Value
  | bool : Bool → Value
  | null : Value
  | obj : List (String × Value) → Value
  | arr : List Value → Value
deriving Repr

/-- `HashMap::insert`: overwrite the value at an existing key, append a
new key. -/
def insertA : List (String × Value) → String → Value → List (String × Value)
  | [], k, v => [(k, v)]
  | (k', v') :: t, k, v =>
    if k' = k then (k, v) :: t else (k', v') :: insertA t k v

/-- Fold the parsed field list into the map, in source order (the
`Extend`-based collection of `sep_by` into a `HashMap`). -/
def buildMap (fs : List (String × Value)) : List (String × Value) :=
  fs.foldl (fun m kv => insertA m kv.1 kv.2) []

/-- Key lookup in the association-list model of the `HashMap`. -/
def lookupA (m : List (String × Value)) (k : String) : Option Value :=
  match m with
  | [] => none
  | (k', v) :: t => if k' = k then some v else lookupA t k

/-- One object field: `(json_string(), lex(char(':')),
json_value_()).map(|t| (t.0, t.2))`. -/
def fieldP (pv : Parser Value) : Parser (String × Value) :=
  mapP (fun t => (t.1, t.2.2))
    (andP jsonStringP (andP (lexP (charP ':')) pv))

/-- `object()`: braces around comma-separated fields collected into the
map, labelled `object`. -/
def objectP (pv : Parser Value) : Parser Value :=
  expectedP "object"
    (mapP (fun fs => Value.obj (buildMap fs))
      (betweenP (lexP (charP '\x7b')) (lexP (charP '\x7d'))
        (sepByP (fieldP pv) (lexP (charP ',')))))

/-- The array alternative of `json_value_`: brackets around
comma-separated values. -/
def arrayP (pv : Parser Value) : Parser Value :=
  mapP Value.arr
    (betweenP (lexP (charP '[')) (lexP (charP ']'))
      (sepByP pv (lexP (charP ','))))

/-- Alternative 1 of `json_value_`: a string value. -/
def strBranch : Parser Value := mapP Value.str jsonStringP

/-- Alternative 4 of `json_value_`: a number value. -/
def numBranch : Parser Value := mapP Value.num numberP

/-- Alternative 5 of `json_value_`: the literal `false`. -/
def falseBranch : Parser Value :=
  lexP (mapP (fun _ => Value.bool false) (pstringP ['f', 'a', 'l', 's', 'e']))

/-- Alternative 6 of `json_value_`: the literal `true`. -/
def trueBranch : Parser Value :=
  lexP (mapP (fun _ => Value.bool true) (pstringP ['t', 'r', 'u', 'e']))

/-- Alternative 7 of `json_value_`: the literal `null`. -/
def nullBranch : Parser Value :=
  lexP (mapP (fun _ => Value.null) (pstringP ['n', 'u', 'l', 'l']))

/-- `json_value_()`: the seven-alternative choice, fuelled for the
recursion through `object`/`array` (each nested value consumes at least
one character before recursing, so fuel `input length + 1` suffices). -/
def jsonValueAux : Nat → Parser Value
  | 0 => fun s => .err false ⟨s.pos, ["fuel"]⟩
  | n + 1 =>
    orElseP strBranch
      (orElseP (objectP (jsonValueAux n))
        (orElseP (arrayP (jsonValueAux n))
          (orElseP numBranch
            (orElseP falseBranch
              (orElseP trueBranch nullBranch)))))

/-- `json_value()`: skip leading whitespace, then `json_value_`. -/
def jsonValueP (fuel : Nat) : Parser Value :=
  withP spacesP (jsonValueAux fuel)

/-- The entry point `parse` of the benchmark: run `json_value` on the
whole input, from position 0. -/
def parseJson (input : String) : Reply Value :=
  jsonValueP (input.length + 1) ⟨0, input.toList⟩

end JsonCombine

namespace JsonCombine

/-- Projection used to refute claimed parse results without needing
decidable equality of `Value`: the final state of a successful reply. -/
def replyState : Reply α → Option PState
  | .ok _ _ s => some s
  | .err _ _ => none

/-- The spec's description of the value dispatch, written from its
words: try the alternatives in the given order, committing to the first
that matches, moving on to the next only when the previous one failed
without consuming input; on two empty failures the expected labels
accumulate. -/
def tryInOrder : List (Parser Value) → Parser Value
  | [] => fun s => .err false ⟨s.pos, []⟩
  | [p] => p
  | p :: q :: ps => fun s =>
    match p s with
    | .ok c a s' => .ok c a s'
    | .err true e => .err true e
    | .err false e =>
      match tryInOrder (q :: ps) s with
      | .err false e' => .err false (mergeE e e')
      | r => r

theorem tryInOrder_cons₂ (p q : Parser Value) (ps : List (Parser Value)) :
    tryInOrder (p :: q :: ps) = orElseP p (tryInOrder (q :: ps)) := by
  funext s
  cases h : p s with
  | ok c a s' => simp [tryInOrder, orElseP, h]
  | err c e =>
    cases c with
    | true => simp [tryInOrder, orElseP, h]
    | false =>
      cases h₂ : tryInOrder (q :: ps) s with
      | ok c₂ a₂ s₂ => simp [tryInOrder, orElseP, h, h₂]
      | err c₂ e₂ => cases c₂ <;> simp [tryInOrder, orElseP, h, h₂]

theorem tryInOrder_single (p : Parser Value) : tryInOrder [p] = p := rfl

theorem orElseP_err_consumed {α : Type} (p q : Parser α) (s : PState)
    (e : PError) (h : p s = .err true e) :
    orElseP p q s = .err true e := by
  simp [orElseP, h]

theorem orElseP_err_empty_ok {α : Type} (p q : Parser α) (s : PState)
    (e : PError) (c : Bool) (a : α) (s' : PState)
    (hp : p s = .err false e) (hq : q s = .ok c a s') :
    orElseP p q s = .ok c a s' := by
  simp [orElseP, hp, hq]

end JsonCombine

namespace JsonCombine

set_option maxRecDepth 10000

theorem lookupA_insertA (m : List (String × Value)) (k k' : String) (v : Value) :
    lookupA (insertA m k v) k' = if k = k' then some v else lookupA m k' := by
  induction m with
  | nil => simp [insertA, lookupA]
  | cons kv t ih =>
    obtain ⟨k₀, v₀⟩ := kv
    by_cases h : k₀ = k
    · subst h
      simp only [insertA, if_pos rfl, lookupA]
      split_ifs <;> rfl
    · simp only [insertA, if_neg h, lookupA]
      rw [ih]
      split_ifs with h₁ h₂ <;> try rfl
      exact absurd (h₂ ▸ h₁) h

theorem findQ_append {α : Type} (p : α → Bool) (l₁ l₂ : List α) :
    (l₁ ++ l₂).find? p = ((l₁.find? p).orElse (fun _ => l₂.find? p)) := by
  induction l₁ with
  | nil => simp
  | cons a t ih => by_cases h : p a <;> simp [h, ih]

theorem lookupA_foldl_insertA (fs : List (String × Value)) (k : String) :
    ∀ acc, lookupA (fs.foldl (fun m kv => insertA m kv.1 kv.2) acc) k =
      (match fs.reverse.find? (fun kv => kv.1 == k) with
       | some kv => some kv.2
       | none => lookupA acc k) := by
  induction fs with
  | nil => intro acc; simp
  | cons kv t ih =>
    intro acc
    simp only [List.foldl_cons, List.reverse_cons, findQ_append, ih]
    cases t.reverse.find? (fun kv => kv.1 == k) with
    | some kv' => simp [Option.orElse]
    | none =>
      by_cases h : kv.1 = k
      · simp [Option.orElse, List.find?, h, lookupA_insertA]
      · simp [Option.orElse, List.find?, h, lookupA_insertA,
          show (kv.1 == k) = false from by simpa using h]

end JsonCombine

namespace JsonCombine

/-- C1 (counterexample): `parse("42 trailing")` succeeds with
`Number(42.0)`, but the unconsumed remainder is `"trailing"`, not
`" trailing"`: the space is consumed by the number token's trailing
`lex` whitespace skip, so the result claimed by C1 (`" trailing"` with
its leading space, i.e. final state position 2) is not what the parser
returns. -/
theorem c1_counterexample :
    parseJson "42 trailing" = .ok true (Value.num 42) ⟨3, "trailing".toList⟩ ∧
      parseJson "42 trailing" ≠ .ok true (Value.num 42) ⟨2, " trailing".toList⟩ := by
  refine ⟨by with_unfolding_all rfl, fun h => absurd (congrArg replyState h) ?_⟩
  decide

/-- C1 (amended): the entry point does not require the entire input to
be consumed — a successful parse returns the parsed value together with
the unconsumed suffix instead of rejecting the trailing bytes, the
whitespace after the value token having been consumed by its `lex`
wrapper: `parse("42 trailing")` succeeds with `Number(42.0)` and
remainder `"trailing"`, and `parse("true, more")` succeeds with
`Bool(true)` and remainder `", more"`. -/
theorem c1_amended :
    parseJson "42 trailing" = .ok true (Value.num 42) ⟨3, "trailing".toList⟩ ∧
      parseJson "true, more" = .ok true (Value.bool true) ⟨4, ", more".toList⟩ := by
  exact ⟨by with_unfolding_all rfl, by with_unfolding_all rfl⟩

/-- C2 (counterexample): on input `"012"` the number parser does not
stop after the `'0'` with value `0.0` and remainder `"12"` (final state
position 1): the fractional digit run is parsed by
`optional(char('.')).with(fractional)`, which runs `fractional`
unconditionally, so the parser consumes all three characters and yields
`0.12`. -/
theorem c2_counterexample :
    numberP ⟨0, "012".toList⟩ = .ok true (3 / 25) ⟨3, []⟩ ∧
      numberP ⟨0, "012".toList⟩ ≠ .ok true 0 ⟨1, "12".toList⟩ := by
  refine ⟨by with_unfolding_all rfl, fun h => absurd (congrArg replyState h) ?_⟩
  decide

/-- C2 (amended): the number parser implements
`'-'? (('0') | integer) '.'? digit* (('e'|'E') '-'? integer)?` — the
`'.'` before the fractional digit run is optional, and a digit run
following the integer part is folded into the fractional magnitude even
with no intervening `'.'`: input `"012"` is consumed entirely and
yields `0.12`, exactly as `"0.12"` does. -/
theorem c2_amended :
    numberP ⟨0, "012".toList⟩ = .ok true (3 / 25) ⟨3, []⟩ ∧
      numberP ⟨0, "0.12".toList⟩ = .ok true (3 / 25) ⟨4, []⟩ := by
  exact ⟨by with_unfolding_all rfl, by with_unfolding_all rfl⟩

/-- C3 (code evaluated at the failing input): the sign does NOT apply
uniformly to the combined integer+fraction magnitude.  The source tests
`x >= 0.0` on the signed integer part, and for `"-0.5"` the integer
part is `-0`, which is not negative, so the fractional magnitude is
added instead of subtracted: `parse("-0.5")` yields `Number(0.5)`, not
`Number(-0.5)`.  The other numeric instances of the claim do hold:
`parse("-1e2") = Number(-100.0)`, `parse("23e-2") = Number(0.23)`,
`parse("0.59") = Number(0.59)`, `parse("-100") = Number(-100.0)`. -/
theorem c3_sign_bug_eval :
    parseJson "-0.5" = .ok true (Value.num (1 / 2)) ⟨4, []⟩ ∧
      parseJson "-1e2" = .ok true (Value.num (-100)) ⟨4, []⟩ ∧
      parseJson "23e-2" = .ok true (Value.num (23 / 100)) ⟨5, []⟩ ∧
      parseJson "0.59" = .ok true (Value.num (59 / 100)) ⟨4, []⟩ ∧
      parseJson "-100" = .ok true (Value.num (-100)) ⟨4, []⟩ := by
  refine ⟨?_, ?_, ?_, ?_, ?_⟩ <;> with_unfolding_all rfl

/-- C5: duplicate keys.  First conjunct: the map built by folding the
parsed field list through `HashMap::insert` associates every key with
the value of its last occurrence in source order (and holds no entry
for absent keys).  Second conjunct: parsing `{"a":1,"a":2}` succeeds
with no duplicate-key error and yields the one-entry map
`{"a": Number(2.0)}`. -/
theorem c5_last_write_wins :
    (∀ (fs : List (String × Value)) (k : String),
        lookupA (buildMap fs) k =
          (fs.reverse.find? (fun kv => kv.1 == k)).map Prod.snd) ∧
      parseJson "\x7b\"a\":1,\"a\":2\x7d" =
        .ok true (Value.obj [("a", Value.num 2)]) ⟨13, []⟩ := by
  constructor
  · intro fs k
    rw [buildMap, lookupA_foldl_insertA]
    cases fs.reverse.find? (fun kv => kv.1 == k) with
    | some kv => simp
    | none => simp [lookupA]
  · with_unfolding_all rfl

/-- C9: on `{"a": }` no alternative of the value parser matches the
`}`, and the whole parse fails with a structured error (the model is a
total function, so no panic is possible) carrying the failure position
and the union of the seven alternatives' expected labels.  The position
is 6: the character immediately after the lexed `':'` token (the colon
at index 4 together with its trailing space at index 5), i.e. exactly
where the field's value was expected. -/
theorem c9_failure_locality :
    parseJson "\x7b\"a\": \x7d" =
      .err true ⟨6, ["string", "object", "[", "number", "false", "true", "null"]⟩ := by
  with_unfolding_all rfl

/-- C10: because `integer` is itself `lex`-wrapped, whitespace is
accepted inside a single number token between the integer part and the
exponent part (`"1 e2"` parses as the single value `Number(100.0)` with
empty remainder) and between the integer part and the fractional part
(`"1 .5"` parses as `Number(1.5)` with empty remainder). -/
theorem c10_ws_inside_number :
    parseJson "1 e2" = .ok true (Value.num 100) ⟨4, []⟩ ∧
      parseJson "1 .5" = .ok true (Value.num (3 / 2)) ⟨4, []⟩ := by
  exact ⟨by with_unfolding_all rfl, by with_unfolding_all rfl⟩

end JsonCombine

namespace JsonCombine

/-- C6: after skipping leading whitespace, the value parser is exactly
the ordered first-match dispatch over the seven alternatives — string,
object, array, number, literal `false`, literal `true`, literal `null`
— committing to the first alternative that matches (or that fails after
consuming input) and moving on to the next alternative only when the
previous one failed without consuming input (`tryInOrder` is that
dispatch policy written out from the spec's words). -/
theorem c6_dispatch_order (n : Nat) (s : PState) :
    jsonValueP (n + 1) s =
      withP spacesP
        (tryInOrder
          [strBranch, objectP (jsonValueAux n), arrayP (jsonValueAux n),
           numBranch, falseBranch, trueBranch, nullBranch]) s := by
  simp only [jsonValueP, withP, mapP, andP, jsonValueAux, tryInOrder_cons₂,
    tryInOrder_single]

/-- C7: committed-choice propagation.  A sub-parser failure without
consumed input is recoverable by the enclosing alternative (the next
alternative runs and its success is the overall result), while a
failure after input was consumed propagates out of the alternative
unchanged.  At the document level, failures after consumed input yield
no value: an unterminated string (`parse("\"ab")`), a malformed escape
inside a string (`parse("\"\x")`), and a `'-'` not followed by digits
(`parse("-x")`) each make the whole parse fail, even though later
alternatives of the value dispatch were never tried. -/
theorem c7_committed_choice :
    (∀ (α : Type) (p q : Parser α) (s : PState) (e : PError),
        p s = .err true e → orElseP p q s = .err true e) ∧
      (∀ (α : Type) (p q : Parser α) (s : PState) (e : PError) (c : Bool)
          (a : α) (s' : PState),
        p s = .err false e → q s = .ok c a s' → orElseP p q s = .ok c a s') ∧
      parseJson "\"ab" = .err true ⟨3, ["\""]⟩ ∧
      parseJson "\"\\x\"" = .err true ⟨2, []⟩ ∧
      parseJson "-x" = .err true ⟨1, ["0", "integer"]⟩ := by
  refine ⟨?_, ?_, ?_, ?_, ?_⟩
  · intro α p q s e h
    exact orElseP_err_consumed p q s e h
  · intro α p q s e c a s' hp hq
    exact orElseP_err_empty_ok p q s e c a s' hp hq
  · with_unfolding_all rfl
  · with_unfolding_all rfl
  · with_unfolding_all rfl

/-- C7 (witness): the committed-choice facts at concrete parsers and
states.  `numBranch` fails after consuming the `'-'` of `"-x"`, and the
enclosing alternative propagates that failure without trying
`falseBranch`; `strBranch` fails without consuming on `"null"`, and the
alternative recovers, returning `nullBranch`'s success. -/
theorem c7_witness :
    orElseP numBranch falseBranch ⟨0, ['-', 'x']⟩ =
        .err true ⟨1, ["0", "integer"]⟩ ∧
      orElseP strBranch nullBranch ⟨0, ['n', 'u', 'l', 'l']⟩ =
        .ok true Value.null ⟨4, []⟩ :=
  ⟨c7_committed_choice.1 Value numBranch falseBranch ⟨0, ['-', 'x']⟩
      ⟨1, ["0", "integer"]⟩ (by with_unfolding_all rfl),
    c7_committed_choice.2.1 Value strBranch nullBranch ⟨0, ['n', 'u', 'l', 'l']⟩
      ⟨0, ["string"]⟩ true Value.null ⟨4, []⟩
      (by with_unfolding_all rfl) (by with_unfolding_all rfl)⟩

/-- C8: string escapes.  Inside a string body, a backslash followed by
one of `"`, `\`, `/`, `b`, `f`, `n`, `r`, `t` yields the corresponding
character — `"`, `\`, `/`, BACKSPACE (0x08), FORMFEED (0x0C), LF, CR,
TAB — and a backslash followed by any character outside the table makes
`json_char`, and hence the string parse, fail with a consumed
(non-backtrackable) failure.  Consequently parsing the JSON text
`"\n\t\"\\"` yields exactly the four-character string LF, TAB, `"`,
`\`. -/
theorem c8_escape_fidelity :
    (∀ (pos : Nat) (cs : List Char) (c r : Char),
        escMap c = some r →
          jsonCharP ⟨pos, '\\' :: c :: cs⟩ = .ok true r ⟨pos + 2, cs⟩) ∧
      (escMap '"' = some '"' ∧ escMap '\\' = some '\\' ∧
        escMap '/' = some '/' ∧ escMap 'b' = some '\x08' ∧
        escMap 'f' = some '\x0c' ∧ escMap 'n' = some '\n' ∧
        escMap 'r' = some '\r' ∧ escMap 't' = some '\t') ∧
      (∀ (pos : Nat) (c : Char) (cs : List Char),
        escMap c = none →
          jsonCharP ⟨pos, '\\' :: c :: cs⟩ = .err true ⟨pos + 1, []⟩) ∧
      (∀ (pos : Nat) (c : Char) (cs : List Char),
        escMap c = none →
          jsonStringP ⟨pos, '"' :: '\\' :: c :: cs⟩ = .err true ⟨pos + 2, []⟩) ∧
      parseJson "\"\\n\\t\\\"\\\\\"" = .ok true (Value.str "\n\t\"\\") ⟨10, []⟩ := by
  refine ⟨?_, ⟨rfl, rfl, rfl, rfl, rfl, rfl, rfl, rfl⟩, ?_, ?_, ?_⟩
  · intro pos cs c r h
    simp [jsonCharP, h]
  · intro pos c cs h
    simp [jsonCharP, h]
  · intro pos c cs h
    simp [jsonStringP, expectedP, mapP, betweenP, skipP, withP, andP, charP,
      satisfyP, manyP, manyAux, jsonCharP, h]
  · with_unfolding_all rfl

/-- C8 (witness): the escape facts at concrete inputs: `\n` yields LF,
`\q` is rejected by `json_char` and by the string parser. -/
theorem c8_witness :
    jsonCharP ⟨0, ['\\', 'n']⟩ = .ok true '\n' ⟨2, []⟩ ∧
      jsonCharP ⟨5, ['\\', 'q', 'x']⟩ = .err true ⟨6, []⟩ ∧
      jsonStringP ⟨0, ['"', '\\', 'q']⟩ = .err true ⟨2, []⟩ :=
  ⟨c8_escape_fidelity.1 0 [] 'n' '\n' rfl,
    c8_escape_fidelity.2.2.1 5 'q' ['x'] rfl,
    c8_escape_fidelity.2.2.2.1 0 'q' [] rfl⟩

end JsonCombine

namespace JsonCombine

/-! Development for the whitespace-insensitivity claim: token-level
parse lemmas, then a document type with explicit whitespace slots, its
renderer, and the correctness of `json_value` on every rendering. -/

/-- Every character of the list is whitespace. -/
def wsOk (l : List Char) : Bool := l.all isWS

/-- The list is empty or does not start with whitespace. -/
def notWSHead : List Char → Bool
  | [] => true
  | c :: _ => !(isWS c)

/-- The list is empty or does not start with a digit. -/
def notDigitHead : List Char → Bool
  | [] => true
  | c :: _ => !(c.isDigit)

/-- The list is empty or starts with a character that ends the current
value in a rendered document: `,`, `]` or the closing brace. -/
def stopOk : List Char → Bool
  | [] => true
  | c :: _ => c == ',' || c == ']' || c == '\x7d'

/-- The list starts with a container-closing character. -/
def closeHead : List Char → Bool
  | [] => false
  | c :: _ => c == ']' || c == '\x7d'

theorem ne_of_class {c x : Char} (h : c.isDigit = true)
    (hx : x.isDigit = false) : (c == x) = false := by
  rw [beq_eq_false_iff_ne]
  intro he
  subst he
  rw [h] at hx
  cases hx

theorem ws_ne_of {c x : Char} (h : isWS c = true) (hx : isWS x = false) :
    (c == x) = false := by
  rw [beq_eq_false_iff_ne]
  intro he
  subst he
  rw [h] at hx
  cases hx

theorem digit_not_ws {c : Char} (h : c.isDigit = true) : isWS c = false := by
  simp only [isWS, Bool.or_eq_false_iff]
  exact ⟨⟨⟨ne_of_class h (by decide), ne_of_class h (by decide)⟩,
    ne_of_class h (by decide)⟩, ne_of_class h (by decide)⟩

theorem wsCount_append {r : List Char} (hr : notWSHead r = true) :
    ∀ w, wsOk w = true → wsCount (w ++ r) = w.length := by
  intro w
  induction w with
  | nil =>
    intro _
    cases r with
    | nil => rfl
    | cons c t =>
      simp only [notWSHead, Bool.not_eq_true'] at hr
      simp [wsCount, hr]
  | cons c t ih =>
    intro hw
    simp only [wsOk, List.all_cons, Bool.and_eq_true] at hw
    have ht := ih (show wsOk t = true by simpa [wsOk] using hw.2)
    simp [List.cons_append, wsCount, ht, hw.1]

/-- `spaces()` on a whitespace run followed by non-whitespace skips
exactly the run. -/
theorem spacesP_append {w r : List Char} (pos : Nat) (hw : wsOk w = true)
    (hr : notWSHead r = true) :
    spacesP ⟨pos, w ++ r⟩ = .ok (!(w.isEmpty)) () ⟨pos + w.length, r⟩ := by
  have hc := wsCount_append hr w hw
  simp only [spacesP, hc, List.drop_left]
  cases w with
  | nil => simp
  | cons c t => simp

theorem charP_ok (c : Char) (pos : Nat) (r : List Char) :
    charP c ⟨pos, c :: r⟩ = .ok true c ⟨pos + 1, r⟩ := by
  simp [charP, expectedP, satisfyP]

theorem charP_fail {c x : Char} (pos : Nat) (r : List Char)
    (h : (x == c) = false) :
    charP c ⟨pos, x :: r⟩ = .err false ⟨pos, [String.mk [c]]⟩ := by
  simp [charP, expectedP, satisfyP, h]

theorem charP_nil (c : Char) (pos : Nat) :
    charP c ⟨pos, []⟩ = .err false ⟨pos, [String.mk [c]]⟩ := by
  simp [charP, expectedP, satisfyP]

end JsonCombine

namespace JsonCombine

theorem mapP_ok {α β : Type} {p : Parser α} {s s' : PState} {c : Bool}
    {a : α} (f : α → β) (hp : p s = .ok c a s') :
    mapP f p s = .ok c (f a) s' := by
  simp [mapP, hp]

theorem andP_ok {α β : Type} {p : Parser α} {q : Parser β}
    {s s' s'' : PState} {c c' : Bool} {a : α} {b : β}
    (hp : p s = .ok c a s') (hq : q s' = .ok c' b s'') :
    andP p q s = .ok (c || c') (a, b) s'' := by
  simp [andP, hp, hq]

theorem withP_ok {α β : Type} {p : Parser α} {q : Parser β}
    {s s' s'' : PState} {c c' : Bool} {a : α} {b : β}
    (hp : p s = .ok c a s') (hq : q s' = .ok c' b s'') :
    withP p q s = .ok (c || c') b s'' := by
  simp [withP, mapP, andP, hp, hq]

theorem skipP_ok {α β : Type} {p : Parser α} {q : Parser β}
    {s s' s'' : PState} {c c' : Bool} {a : α} {b : β}
    (hp : p s = .ok c a s') (hq : q s' = .ok c' b s'') :
    skipP p q s = .ok (c || c') a s'' := by
  simp [skipP, mapP, andP, hp, hq]

/-- `lex(p)` when `p` succeeds leaving a whitespace run followed by
non-whitespace: the run is consumed. -/
theorem lexP_ok {α : Type} {p : Parser α} {s : PState} {c : Bool} {a : α}
    {pos' : Nat} {w r : List Char} (hp : p s = .ok c a ⟨pos', w ++ r⟩)
    (hw : wsOk w = true) (hr : notWSHead r = true) :
    lexP p s = .ok (c || !(w.isEmpty)) a ⟨pos' + w.length, r⟩ :=
  skipP_ok hp (spacesP_append pos' hw hr)

/-- A digit run with a non-digit (or nothing) after it: `many(digit)`
consumes exactly the run. -/
theorem manyAux_digits :
    ∀ (ds : List Char) {r : List Char} (pos fuel : Nat),
      ds.all Char.isDigit = true → notDigitHead r = true →
      ds.length < fuel →
      manyAux digitP fuel ⟨pos, ds ++ r⟩ =
        .ok (!(ds.isEmpty)) ds ⟨pos + ds.length, r⟩ := by
  intro ds
  induction ds with
  | nil =>
    intro r pos fuel _ hr hf
    cases fuel with
    | zero => omega
    | succ f =>
      cases r with
      | nil => simp [manyAux, digitP, expectedP, satisfyP]
      | cons c t =>
        simp only [notDigitHead, Bool.not_eq_true'] at hr
        simp [manyAux, digitP, expectedP, satisfyP, hr]
  | cons d ds' ih =>
    intro r pos fuel hd hr hf
    cases fuel with
    | zero => omega
    | succ f =>
      simp only [List.all_cons, Bool.and_eq_true] at hd
      have hrec := ih (pos + 1) f hd.2 hr
        (by simp only [List.length_cons] at hf; omega)
      have h0 : digitP ⟨pos, d :: (ds' ++ r)⟩ = .ok true d ⟨pos + 1, ds' ++ r⟩ := by
        simp [digitP, expectedP, satisfyP, hd.1]
      simp only [List.cons_append, manyAux, h0, hrec]
      simp only [Reply.ok.injEq, PState.mk.injEq, List.length_cons,
        List.isEmpty_cons, Bool.true_or, Bool.not_false]
      refine ⟨trivial, trivial, by omega, trivial⟩

theorem manyP_digits (ds r : List Char) (pos : Nat)
    (hd : ds.all Char.isDigit = true) (hr : notDigitHead r = true) :
    manyP digitP ⟨pos, ds ++ r⟩ = .ok (!(ds.isEmpty)) ds ⟨pos + ds.length, r⟩ := by
  apply manyAux_digits ds pos _ hd hr
  simp [List.length_append]
  omega

theorem many1P_digits {d : Char} {ds r : List Char} (pos : Nat)
    (hd : (d :: ds).all Char.isDigit = true) (hr : notDigitHead r = true) :
    many1P digitP ⟨pos, d :: ds ++ r⟩ =
      .ok true (d :: ds) ⟨pos + 1 + ds.length, r⟩ := by
  simp only [List.all_cons, Bool.and_eq_true] at hd
  have h1 : digitP ⟨pos, d :: (ds ++ r)⟩ = .ok true d ⟨pos + 1, ds ++ r⟩ := by
    simp [digitP, expectedP, satisfyP, hd.1]
  have h2 := manyP_digits ds r (pos + 1) hd.2 hr
  have h3 := andP_ok h1 h2
  have h4 := mapP_ok (fun x : Char × List Char => x.1 :: x.2) h3
  simpa [many1P] using h4

/-- `integer()` on a digit run, trailing whitespace consumed by its
`lex`. -/
theorem expectedP_ok {α : Type} {p : Parser α} {s s' : PState} {c : Bool}
    {a : α} (l : String) (hp : p s = .ok c a s') :
    expectedP l p s = .ok c a s' := by
  simp [expectedP, hp]

theorem integerP_ok (d : Char) (ds w r : List Char) (pos : Nat)
    (hd : (d :: ds).all Char.isDigit = true) (hw : wsOk w = true)
    (hr : notWSHead r = true) (hdr : notDigitHead (w ++ r) = true) :
    integerP ⟨pos, d :: ds ++ w ++ r⟩ =
      .ok true (intFold (d :: ds)) ⟨pos + 1 + ds.length + w.length, r⟩ := by
  have h1 : many1P digitP ⟨pos, d :: ds ++ w ++ r⟩ =
      .ok true (d :: ds) ⟨pos + 1 + ds.length, w ++ r⟩ := by
    have := many1P_digits pos hd hdr
    simpa [List.append_assoc] using this
  have h2 := lexP_ok h1 hw hr
  have h3 := mapP_ok intFold h2
  have h4 := expectedP_ok "integer" h3
  simpa [integerP] using h4

end JsonCombine

namespace JsonCombine

theorem bne_of_pred {x y : Char} {p : Char → Bool} (h : p x = false)
    (h' : p y = true) : (x == y) = false := by
  rw [beq_eq_false_iff_ne]
  intro he
  subst he
  rw [h] at h'
  cases h'

theorem matchLen_self : ∀ (t r : List Char), matchLen t (t ++ r) = t.length := by
  intro t
  induction t with
  | nil => intro r; rfl
  | cons c ts ih => intro r; simp [matchLen, ih]

theorem pstringP_ok (t r : List Char) (pos : Nat) :
    pstringP t ⟨pos, t ++ r⟩ = .ok (!(t.isEmpty)) () ⟨pos + t.length, r⟩ := by
  simp [pstringP, matchLen_self, List.drop_left]

theorem pstringP_fail {c x : Char} {ts : List Char} (pos : Nat) (r : List Char)
    (h : (c == x) = false) :
    pstringP (c :: ts) ⟨pos, x :: r⟩ = .err false ⟨pos, [String.mk (c :: ts)]⟩ := by
  have hm : matchLen (c :: ts) (x :: r) = 0 := by simp [matchLen, h]
  simp only [pstringP, hm]
  rw [if_neg (by simp)]
  simp

theorem pstringP_nil (c : Char) (ts : List Char) (pos : Nat) :
    pstringP (c :: ts) ⟨pos, []⟩ = .err false ⟨pos, [String.mk (c :: ts)]⟩ := by
  have hm : matchLen (c :: ts) [] = 0 := by simp [matchLen]
  simp only [pstringP, hm]
  rw [if_neg (by simp)]
  simp

theorem strFalseLit : String.mk ['f', 'a', 'l', 's', 'e'] = "false" := rfl

theorem strTrueLit : String.mk ['t', 'r', 'u', 'e'] = "true" := rfl

theorem strNullLit : String.mk ['n', 'u', 'l', 'l'] = "null" := rfl

theorem strLBrack : String.mk ['['] = "[" := rfl

theorem strQuote : String.mk ['"'] = "\"" := rfl

theorem strZero : String.mk ['0'] = "0" := rfl

/-- At a value-ending character (or end of input) every alternative of
`json_value_` fails without consuming, and the dispatch fails with the
union of the seven expected labels. -/
theorem jsonValueAux_stop (k pos : Nat) {l : List Char} (hl : stopOk l = true) :
    jsonValueAux (k + 1) ⟨pos, l⟩ =
      .err false
        ⟨pos, ["string", "object", "[", "number", "false", "true", "null"]⟩ := by
  have run : ∀ (l' : List Char),
      pstringP ['f', 'a', 'l', 's', 'e'] ⟨pos, l'⟩ =
        .err false ⟨pos, [String.mk ['f', 'a', 'l', 's', 'e']]⟩ →
      pstringP ['t', 'r', 'u', 'e'] ⟨pos, l'⟩ =
        .err false ⟨pos, [String.mk ['t', 'r', 'u', 'e']]⟩ →
      pstringP ['n', 'u', 'l', 'l'] ⟨pos, l'⟩ =
        .err false ⟨pos, [String.mk ['n', 'u', 'l', 'l']]⟩ →
      ((l' = []) ∨ ∃ c t, l' = c :: t ∧ (c == '"') = false ∧
        (c == '\x7b') = false ∧ (c == '[') = false ∧ (c == '-') = false ∧
        (c == '0') = false ∧ c.isDigit = false) →
      jsonValueAux (k + 1) ⟨pos, l'⟩ =
        .err false
          ⟨pos, ["string", "object", "[", "number", "false", "true", "null"]⟩ := by
    intro l' hF hT hN hshape
    rcases hshape with h | ⟨c, t, rfl, h1, h2, h3, h4, h5, h6⟩
    · subst h
      simp [jsonValueAux, strBranch, objectP, arrayP, numBranch, falseBranch,
        trueBranch, nullBranch, jsonStringP, numberP, intPartP, integerP,
        betweenP, orElseP, andP, mapP, withP, skipP, expectedP, optionalP,
        lexP, charP, satisfyP, digitP, many1P, mergeE, hF, hT, hN, strFalseLit,
        strTrueLit, strNullLit, strLBrack]
    · simp [jsonValueAux, strBranch, objectP, arrayP, numBranch, falseBranch,
        trueBranch, nullBranch, jsonStringP, numberP, intPartP, integerP,
        betweenP, orElseP, andP, mapP, withP, skipP, expectedP, optionalP,
        lexP, charP, satisfyP, digitP, many1P, mergeE, h1, h2, h3, h4, h5, h6,
        hF, hT, hN, strFalseLit, strTrueLit, strNullLit, strLBrack]
  cases l with
  | nil =>
    exact run [] (pstringP_nil _ _ pos) (pstringP_nil _ _ pos)
      (pstringP_nil _ _ pos) (Or.inl rfl)
  | cons c t =>
    simp only [stopOk, Bool.or_eq_true, beq_iff_eq] at hl
    rcases hl with (h | h) | h <;> subst h <;>
      exact run _ (pstringP_fail pos t (by decide))
        (pstringP_fail pos t (by decide)) (pstringP_fail pos t (by decide))
        (Or.inr ⟨_, t, rfl, by decide, by decide, by decide, by decide,
          by decide, by decide⟩)

end JsonCombine

namespace JsonCombine

theorem mapP_err {α β : Type} {p : Parser α} {s : PState} {c : Bool}
    {e : PError} (f : α → β) (hp : p s = .err c e) :
    mapP f p s = .err c e := by
  simp [mapP, hp]

theorem orElseP_ok {α : Type} {p q : Parser α} {s s' : PState} {c : Bool}
    {a : α} (hp : p s = .ok c a s') : orElseP p q s = .ok c a s' := by
  simp [orElseP, hp]

theorem optionalP_some {α : Type} {p : Parser α} {s s' : PState} {c : Bool}
    {a : α} (hp : p s = .ok c a s') : optionalP p s = .ok c (some a) s' := by
  simp [optionalP, hp]

theorem optionalP_none {α : Type} {p : Parser α} {s : PState} {e : PError}
    (hp : p s = .err false e) : optionalP p s = .ok false none s := by
  simp [optionalP, hp]

theorem spacesP_none {r : List Char} (pos : Nat) (hr : notWSHead r = true) :
    spacesP ⟨pos, r⟩ = .ok false () ⟨pos, r⟩ := by
  have h := spacesP_append (w := []) (r := r) pos rfl hr
  simpa using h

/-- A number token of the source grammar: optional sign, integer-part
digits, optional fractional digits (after `.`), optional exponent
(`e`/`E` as recorded in the first flag, optional `-` in the second,
then digits). -/
structure NumTok where
  neg : Bool
  ip : List Char
  frac : Option (List Char)
  ex : Option (Bool × Bool × List Char)

/-- Well-formedness of a number token: nonempty digit run for the
integer part, with a leading `0` only as the literal `"0"`; digit runs
for fraction and exponent, the exponent's nonempty. -/
def wfNum (t : NumTok) : Bool :=
  !(t.ip.isEmpty) && t.ip.all Char.isDigit &&
    (!(t.ip.headD ' ' == '0') || t.ip == ['0']) &&
    (match t.frac with
     | none => true
     | some ds => ds.all Char.isDigit) &&
    (match t.ex with
     | none => true
     | some (_, _, ds) => !(ds.isEmpty) && ds.all Char.isDigit)

/-- The character sequence of a number token. -/
def renderNum (t : NumTok) : List Char :=
  (if t.neg then ['-'] else []) ++ t.ip ++
    (match t.frac with
     | none => []
     | some ds => '.' :: ds) ++
    (match t.ex with
     | none => []
     | some (up, negE, ds) =>
       (if up then 'E' else 'e') :: ((if negE then ['-'] else []) ++ ds))

/-- Value of the integer-part alternative: `0` for the literal `"0"`
branch, the digit fold cast to `ℚ` otherwise. -/
def ipVal (ip : List Char) : ℚ :=
  if ip = ['0'] then 0 else ((intFold ip : Int) : ℚ)

/-- The signed integer part (`-0` collapses to `0`, exactly as
`-0.0 >= 0.0` holds for the source's `f64`). -/
def signedIp (t : NumTok) : ℚ :=
  if t.neg then -(ipVal t.ip) else ipVal t.ip

/-- The mantissa: fractional magnitude added for a non-negative signed
integer part, subtracted otherwise. -/
def mantissa (t : NumTok) : ℚ :=
  if signedIp t ≥ 0 then signedIp t + fracFold (t.frac.getD [])
  else signedIp t - fracFold (t.frac.getD [])

/-- The numeric value of a well-formed number token, as the source
computes it. -/
def numVal (t : NumTok) : ℚ :=
  match t.ex with
  | none => mantissa t
  | some (_, negE, ds) =>
    mantissa t * qpow10 (if negE then -(intFold ds) else intFold ds)

theorem intPartP_tok (ip l : List Char) (pos : Nat)
    (h1 : ip.all Char.isDigit = true)
    (h3 : (ip.headD ' ' == '0') = false ∨ ip = ['0'])
    (hne : ip.isEmpty = false)
    (hl1 : notWSHead l = true) (hl2 : notDigitHead l = true) :
    intPartP ⟨pos, ip ++ l⟩ = .ok true (ipVal ip) ⟨pos + ip.length, l⟩ := by
  rcases h3 with h3 | h3
  · cases ip with
    | nil => cases hne
    | cons d ip' =>
      simp only [List.headD_cons] at h3
      have hz : ¬(d :: ip' = ['0']) := by
        intro he
        cases he
        simp at h3
      have hint := integerP_ok d ip' [] l pos h1
        rfl hl1 (by simpa using hl2)
      have hm := mapP_ok (fun x : Int => (x : ℚ)) hint
      have hfail : mapP (fun _ => (0 : ℚ)) (charP '0') ⟨pos, d :: ip' ++ l⟩ =
          .err false ⟨pos, [String.mk ['0']]⟩ :=
        mapP_err _ (charP_fail pos _ h3)
      have := orElseP_err_empty_ok _ _ _ _ _ _ _ hfail
        (by simpa [List.append_assoc] using hm)
      simp only [intPartP]
      rw [this]
      simp [ipVal, hz, List.length_cons]
      omega
  · subst h3
    have h0 := charP_ok '0' pos l
    have hm := mapP_ok (fun _ : Char => (0 : ℚ)) h0
    have := orElseP_ok (q := mapP (fun x : Int => (x : ℚ)) integerP) hm
    simp only [intPartP]
    rw [show (['0'] ++ l : List Char) = '0' :: l from rfl, this]
    simp [ipVal]

theorem intPartP_zero (pos : Nat) (l : List Char) :
    intPartP ⟨pos, '0' :: l⟩ = .ok true (0 : ℚ) ⟨pos + 1, l⟩ := by
  have h0 := charP_ok '0' pos l
  have hm := mapP_ok (fun _ : Char => (0 : ℚ)) h0
  have := orElseP_ok (q := mapP (fun x : Int => (x : ℚ)) integerP) hm
  simpa [intPartP] using this

theorem intPartP_tok_ws (d : Char) (ip' w r : List Char) (pos : Nat)
    (h1 : (d :: ip').all Char.isDigit = true) (hz : (d == '0') = false)
    (hw : wsOk w = true) (hr : notWSHead r = true)
    (hdr : notDigitHead (w ++ r) = true) :
    intPartP ⟨pos, d :: ip' ++ w ++ r⟩ =
      .ok true ((intFold (d :: ip') : Int) : ℚ)
        ⟨pos + 1 + ip'.length + w.length, r⟩ := by
  have hint := integerP_ok d ip' w r pos h1 hw hr hdr
  have hm := mapP_ok (fun x : Int => (x : ℚ)) hint
  have hfail : mapP (fun _ => (0 : ℚ)) (charP '0') ⟨pos, d :: ip' ++ w ++ r⟩ =
      .err false ⟨pos, [String.mk ['0']]⟩ :=
    mapP_err _ (charP_fail pos _ hz)
  have := orElseP_err_empty_ok _ _ _ _ _ _ _ hfail hm
  simpa [intPartP] using this

end JsonCombine

namespace JsonCombine

/-- The list is empty or does not start with the given character. -/
def headNe (l : List Char) (x : Char) : Bool :=
  match l with
  | [] => true
  | c :: _ => !(c == x)

theorem satisfyP_ok {pred : Char → Bool} {c : Char} (pos : Nat) (r : List Char)
    (h : pred c = true) : satisfyP pred ⟨pos, c :: r⟩ = .ok true c ⟨pos + 1, r⟩ := by
  simp [satisfyP, h]

theorem satisfyP_fail {pred : Char → Bool} {c : Char} (pos : Nat) (r : List Char)
    (h : pred c = false) : satisfyP pred ⟨pos, c :: r⟩ = .err false ⟨pos, []⟩ := by
  simp [satisfyP, h]

theorem satisfyP_nil (pred : Char → Bool) (pos : Nat) :
    satisfyP pred ⟨pos, []⟩ = .err false ⟨pos, []⟩ := rfl

theorem ws_not_digit {c : Char} (h : isWS c = true) : c.isDigit = false := by
  simp only [isWS, Bool.or_eq_true, beq_iff_eq] at h
  rcases h with ((h | h) | h) | h <;> subst h <;> decide

theorem stop_head_facts {r : List Char} (hr : stopOk r = true) :
    notWSHead r = true ∧ notDigitHead r = true ∧ headNe r '.' = true ∧
      headNe r 'e' = true ∧ headNe r 'E' = true ∧ headNe r '-' = true := by
  cases r with
  | nil => exact ⟨rfl, rfl, rfl, rfl, rfl, rfl⟩
  | cons c t =>
    simp only [stopOk, Bool.or_eq_true, beq_iff_eq] at hr
    rcases hr with (h | h) | h <;> subst h <;>
      exact ⟨rfl, rfl, rfl, rfl, rfl, rfl⟩

theorem ws_stop_head_facts {w r : List Char} (hw : wsOk w = true)
    (hr : stopOk r = true) :
    notDigitHead (w ++ r) = true ∧ headNe (w ++ r) '.' = true ∧
      headNe (w ++ r) 'e' = true ∧ headNe (w ++ r) 'E' = true := by
  cases w with
  | nil =>
    have h := stop_head_facts hr
    exact ⟨h.2.1, h.2.2.1, h.2.2.2.1, h.2.2.2.2.1⟩
  | cons c t =>
    simp only [wsOk, List.all_cons, Bool.and_eq_true] at hw
    refine ⟨?_, ?_, ?_, ?_⟩
    · simp [notDigitHead, ws_not_digit hw.1]
    · simp [headNe, ws_ne_of hw.1 (show isWS '.' = false from rfl)]
    · simp [headNe, ws_ne_of hw.1 (show isWS 'e' = false from rfl)]
    · simp [headNe, ws_ne_of hw.1 (show isWS 'E' = false from rfl)]

theorem fracP_dot (ds l : List Char) (pos : Nat)
    (hd : ds.all Char.isDigit = true) (hl : notDigitHead l = true) :
    withP (optionalP (charP '.')) fractionalP ⟨pos, '.' :: ds ++ l⟩ =
      .ok true (fracFold ds) ⟨pos + 1 + ds.length, l⟩ := by
  have h1 := optionalP_some (charP_ok '.' pos (ds ++ l))
  have h2 := manyP_digits ds l (pos + 1) hd hl
  have h3 := mapP_ok fracFold h2
  have h4 := withP_ok h1 h3
  have : pos + 1 + ds.length = pos + 1 + ds.length := rfl
  simpa [fractionalP] using h4

theorem fracP_noDot {l : List Char} (pos : Nat) (h1 : headNe l '.' = true)
    (h2 : notDigitHead l = true) :
    withP (optionalP (charP '.')) fractionalP ⟨pos, l⟩ =
      .ok false (fracFold []) ⟨pos, l⟩ := by
  have hopt : optionalP (charP '.') ⟨pos, l⟩ = .ok false none ⟨pos, l⟩ := by
    cases l with
    | nil => exact optionalP_none (charP_nil '.' pos)
    | cons c t =>
      refine optionalP_none (charP_fail pos t ?_)
      simpa [headNe] using h1
  have h2' : manyP digitP ⟨pos, l⟩ = .ok false [] ⟨pos, l⟩ := by
    have := manyP_digits [] l pos rfl h2
    simpa using this
  have h3 := mapP_ok fracFold h2'
  have h4 := withP_ok hopt h3
  simpa [fractionalP] using h4

theorem expPartP_tok (up negE : Bool) (d : Char) (eds' w r : List Char)
    (pos : Nat) (hd : (d :: eds').all Char.isDigit = true)
    (hw : wsOk w = true) (hr : notWSHead r = true)
    (hdr : notDigitHead (w ++ r) = true) :
    expPartP
        ⟨pos, (if up then 'E' else 'e') ::
          ((if negE then ['-'] else []) ++ (d :: eds') ++ w ++ r)⟩ =
      .ok true ((if negE then some '-' else none), intFold (d :: eds'))
        ⟨pos + 1 + (if negE then 1 else 0) + 1 + eds'.length + w.length, r⟩ := by
  have hsat : satisfyP (fun c => c == 'e' || c == 'E')
      ⟨pos, (if up then 'E' else 'e') ::
        ((if negE then ['-'] else []) ++ (d :: eds') ++ w ++ r)⟩ =
      .ok true (if up then 'E' else 'e')
        ⟨pos + 1, (if negE then ['-'] else []) ++ (d :: eds') ++ w ++ r⟩ := by
    apply satisfyP_ok
    cases up <;> rfl
  have hall := hd
  simp only [List.all_cons, Bool.and_eq_true] at hall
  have hint := integerP_ok d eds' w r
    (pos + 1 + (if negE then 1 else 0)) hd hw hr hdr
  have hopt : optionalP (charP '-')
      ⟨pos + 1, (if negE then ['-'] else []) ++ (d :: eds') ++ w ++ r⟩ =
      .ok negE (if negE then some '-' else none)
        ⟨pos + 1 + (if negE then 1 else 0), d :: eds' ++ w ++ r⟩ := by
    cases negE with
    | true =>
      have h := optionalP_some (charP_ok '-' (pos + 1) (d :: eds' ++ w ++ r))
      simpa [List.append_assoc] using h
    | false =>
      have h := optionalP_none
        (charP_fail (c := '-') (pos + 1) (eds' ++ w ++ r)
          (ne_of_class hall.1 (by decide)))
      simpa [List.append_assoc] using h
  have hand := andP_ok hopt (by simpa [List.append_assoc] using hint)
  have hwith := withP_ok hsat hand
  have : (true || (negE || true)) = true := by simp
  simpa [expPartP] using hwith

end JsonCombine

namespace JsonCombine

theorem expPartP_fail {l : List Char} (pos : Nat)
    (h1 : headNe l 'e' = true) (h2 : headNe l 'E' = true) :
    expPartP ⟨pos, l⟩ = .err false ⟨pos, []⟩ := by
  have hsat : satisfyP (fun c => c == 'e' || c == 'E') ⟨pos, l⟩ =
      .err false ⟨pos, []⟩ := by
    cases l with
    | nil => exact satisfyP_nil _ pos
    | cons c t =>
      apply satisfyP_fail
      simp only [headNe, Bool.not_eq_true'] at h1 h2
      simp [h1, h2]
  simp [expPartP, withP, mapP, andP, hsat]

/-- Sequencing skeleton of `number()`: given the replies of its five
stages, the whole lexed and labelled number parser combines them. -/
theorem numberP_glue {s₀ s₁ s₂ s₃ s₄ s₅ : PState} {c₁ c₂ c₃ c₄ c₅ : Bool}
    {sgn : Option Char} {q₂ q₃ : ℚ} {e₄ : Option (Option Char × Int)}
    (h₁ : optionalP (charP '-') s₀ = .ok c₁ sgn s₁)
    (h₂ : intPartP s₁ = .ok c₂ q₂ s₂)
    (h₃ : withP (optionalP (charP '.')) fractionalP s₂ = .ok c₃ q₃ s₃)
    (h₄ : optionalP expPartP s₃ = .ok c₄ e₄ s₄)
    (h₅ : spacesP s₄ = .ok c₅ () s₅) :
    numberP s₀ = .ok ((((c₁ || c₂) || c₃) || c₄) || c₅)
      (match e₄ with
       | some (se, e) =>
         if 0 ≤ (if sgn.isSome then -q₂ else q₂)
         then ((if sgn.isSome then -q₂ else q₂) + q₃) *
           qpow10 (if se.isSome then -e else e)
         else ((if sgn.isSome then -q₂ else q₂) - q₃) *
           qpow10 (if se.isSome then -e else e)
       | none =>
         if 0 ≤ (if sgn.isSome then -q₂ else q₂)
         then (if sgn.isSome then -q₂ else q₂) + q₃
         else (if sgn.isSome then -q₂ else q₂) - q₃) s₅ := by
  cases e₄ with
  | none =>
    have a1 := andP_ok h₁ h₂
    have a2 := mapP_ok
      (fun x : Option Char × ℚ => if x.1.isSome then -x.2 else x.2) a1
    have a3 := andP_ok a2 h₃
    have a4 := mapP_ok
      (fun x : ℚ × ℚ => if x.1 ≥ 0 then x.1 + x.2 else x.1 - x.2) a3
    have a5 := andP_ok a4 h₄
    have a6 := mapP_ok
      (fun x : ℚ × Option (Option Char × Int) =>
        match x.2 with
        | some (sign, e) => x.1 * qpow10 (if sign.isSome then -e else e)
        | none => x.1) a5
    have a7 := skipP_ok a6 h₅
    have a8 := expectedP_ok "number" a7
    simpa [numberP, lexP] using a8
  | some p =>
    obtain ⟨se, e⟩ := p
    have a1 := andP_ok h₁ h₂
    have a2 := mapP_ok
      (fun x : Option Char × ℚ => if x.1.isSome then -x.2 else x.2) a1
    have a3 := andP_ok a2 h₃
    have a4 := mapP_ok
      (fun x : ℚ × ℚ => if x.1 ≥ 0 then x.1 + x.2 else x.1 - x.2) a3
    have a5 := andP_ok a4 h₄
    have a6 := mapP_ok
      (fun x : ℚ × Option (Option Char × Int) =>
        match x.2 with
        | some (sign, e) => x.1 * qpow10 (if sign.isSome then -e else e)
        | none => x.1) a5
    have a7 := skipP_ok a6 h₅
    have a8 := expectedP_ok "number" a7
    simpa [numberP, lexP] using a8

end JsonCombine

namespace JsonCombine

theorem optSign (neg : Bool) (l : List Char) (pos : Nat)
    (hl : headNe l '-' = true) :
    optionalP (charP '-') ⟨pos, (if neg then ['-'] else []) ++ l⟩ =
      .ok neg (if neg then some '-' else none)
        ⟨pos + (if neg then 1 else 0), l⟩ := by
  cases neg with
  | true => simpa using optionalP_some (charP_ok '-' pos l)
  | false =>
    cases l with
    | nil => simpa using optionalP_none (charP_nil '-' pos)
    | cons c t =>
      simpa using optionalP_none
        (charP_fail pos t (by simpa [headNe] using hl))

theorem numberP_render {t : NumTok} {w r : List Char} (pos : Nat)
    (ht : wfNum t = true) (hw : wsOk w = true) (hr : stopOk r = true) :
    numberP ⟨pos, renderNum t ++ w ++ r⟩ =
      .ok true (numVal t) ⟨pos + (renderNum t).length + w.length, r⟩ := by
  obtain ⟨neg, ip, frac, ex⟩ := t
  simp only [wfNum, Bool.and_eq_true] at ht
  obtain ⟨⟨⟨⟨hne, hdig⟩, hzero⟩, hfrac⟩, hex⟩ := ht
  rw [Bool.not_eq_true'] at hne
  have hz : (ip.headD ' ' == '0') = false ∨ ip = ['0'] := by
    simpa [Bool.or_eq_true, Bool.not_eq_true'] using hzero
  obtain ⟨hrW, hrD, hrDot, hrE, hrEU, hrDash⟩ := stop_head_facts hr
  obtain ⟨hwrD, hwrDot, hwrE, hwrEU⟩ := ws_stop_head_facts hw hr
  cases ip with
  | nil => simp at hne
  | cons d ip' =>
  have hd0 : d.isDigit = true := by
    simp only [List.all_cons, Bool.and_eq_true] at hdig
    exact hdig.1
  have hs1 : (if neg then some '-' else (none : Option Char)).isSome = neg := by
    cases neg <;> rfl
  rcases frac with _ | ds <;> rcases ex with _ | ⟨up, negE, eds⟩
  -- Case D/E: no fraction, no exponent.
  · rcases hz with hz | hz
    · -- integer path, leading digit not '0'
      have h0 : (d == '0') = false := by simpa using hz
      have h₁ : optionalP (charP '-')
          ⟨pos, (if neg then ['-'] else []) ++ (d :: (ip' ++ (w ++ r)))⟩ =
          .ok neg (if neg then some '-' else none)
            ⟨pos + (if neg then 1 else 0), d :: (ip' ++ (w ++ r))⟩ := by
        have := optSign neg ((d :: ip') ++ (w ++ r)) pos
          (by
            simp only [List.cons_append, headNe]
            simp [ne_of_class (x := '-') hd0 (by decide)])
        simpa using this
      have h₂ : intPartP
          ⟨pos + (if neg then 1 else 0), d :: (ip' ++ (w ++ r))⟩ =
          .ok true ((intFold (d :: ip') : Int) : ℚ)
            ⟨pos + (if neg then 1 else 0) + 1 + ip'.length + w.length, r⟩ := by
        have := intPartP_tok_ws d ip' w r
          (pos + (if neg then 1 else 0)) hdig h0 hw hrW hwrD
        simpa using this
      have h₃ := fracP_noDot
        (pos + (if neg then 1 else 0) + 1 + ip'.length + w.length) hrDot hrD
      have h₄ := optionalP_none (α := Option Char × Int)
        (expPartP_fail
          (pos + (if neg then 1 else 0) + 1 + ip'.length + w.length) hrE hrEU)
      have h₅ := spacesP_none
        (pos + (if neg then 1 else 0) + 1 + ip'.length + w.length) hrW
      have G := numberP_glue h₁ h₂ h₃ h₄ h₅
      have hstream : renderNum ⟨neg, d :: ip', none, none⟩ ++ w ++ r =
          (if neg then ['-'] else []) ++ (d :: (ip' ++ (w ++ r))) := by
        simp [renderNum, List.append_assoc]
      rw [hstream, G]
      simp only [Reply.ok.injEq, PState.mk.injEq]
      refine ⟨by simp, ?_, ?_, trivial⟩
      · have hnz : ¬(d :: ip' = ['0']) := by
          intro h
          cases h
          simp at h0
        simp [numVal, mantissa, signedIp, ipVal, hnz, hs1, ge_iff_le]
      · cases neg <;> simp [renderNum] <;> omega
    · -- literal zero path
      obtain ⟨rfl, rfl⟩ : d = '0' ∧ ip' = [] := by simpa using hz
      have h₁ : optionalP (charP '-')
          ⟨pos, (if neg then ['-'] else []) ++ ('0' :: (w ++ r))⟩ =
          .ok neg (if neg then some '-' else none)
            ⟨pos + (if neg then 1 else 0), '0' :: (w ++ r)⟩ := by
        have := optSign neg ('0' :: (w ++ r)) pos rfl
        simpa using this
      have h₂ := intPartP_zero (pos + (if neg then 1 else 0)) (w ++ r)
      have h₃ := fracP_noDot (pos + (if neg then 1 else 0) + 1) hwrDot hwrD
      have h₄ := optionalP_none (α := Option Char × Int)
        (expPartP_fail (pos + (if neg then 1 else 0) + 1) hwrE hwrEU)
      have h₅ := spacesP_append (pos + (if neg then 1 else 0) + 1) hw hrW
      have G := numberP_glue h₁ h₂ h₃ h₄ h₅
      have hstream : renderNum ⟨neg, ['0'], none, none⟩ ++ w ++ r =
          (if neg then ['-'] else []) ++ ('0' :: (w ++ r)) := by
        simp [renderNum, List.append_assoc]
      rw [hstream, G]
      simp only [Reply.ok.injEq, PState.mk.injEq]
      refine ⟨by simp, ?_, ?_, trivial⟩
      · simp [numVal, mantissa, signedIp, ipVal, hs1, ge_iff_le]
      · cases neg <;> simp [renderNum] <;> omega
  -- Case C: no fraction, exponent present.
  · simp only [Bool.and_eq_true, Bool.not_eq_true'] at hex
    obtain ⟨hexne, hexdig⟩ := hex
    cases eds with
    | nil => simp at hexne
    | cons d₂ eds' =>
    have hs2 : (if negE then some '-' else (none : Option Char)).isSome = negE := by
      cases negE <;> rfl
    have h₁ : optionalP (charP '-')
        ⟨pos, (if neg then ['-'] else []) ++
          (d :: (ip' ++ ((if up then 'E' else 'e') ::
            ((if negE then ['-'] else []) ++ (d₂ :: (eds' ++ (w ++ r)))))))⟩ =
        .ok neg (if neg then some '-' else none)
          ⟨pos + (if neg then 1 else 0),
            d :: (ip' ++ ((if up then 'E' else 'e') ::
              ((if negE then ['-'] else []) ++ (d₂ :: (eds' ++ (w ++ r))))))⟩ := by
      have := optSign neg
        ((d :: ip') ++ ((if up then 'E' else 'e') ::
          ((if negE then ['-'] else []) ++ (d₂ :: (eds' ++ (w ++ r)))))) pos
        (by
          simp only [List.cons_append, headNe]
          simp [ne_of_class (x := '-') hd0 (by decide)])
      simpa using this
    have h₂ : intPartP
        ⟨pos + (if neg then 1 else 0),
          d :: (ip' ++ ((if up then 'E' else 'e') ::
            ((if negE then ['-'] else []) ++ (d₂ :: (eds' ++ (w ++ r))))))⟩ =
        .ok true (ipVal (d :: ip'))
          ⟨pos + (if neg then 1 else 0) + (d :: ip').length,
            (if up then 'E' else 'e') ::
              ((if negE then ['-'] else []) ++ (d₂ :: (eds' ++ (w ++ r))))⟩ := by
      have := intPartP_tok (d :: ip')
        ((if up then 'E' else 'e') ::
          ((if negE then ['-'] else []) ++ (d₂ :: (eds' ++ (w ++ r)))))
        (pos + (if neg then 1 else 0)) hdig hz hne
        (by cases up <;> rfl) (by cases up <;> rfl)
      simpa using this
    have h₃ := fracP_noDot (l := (if up then 'E' else 'e') ::
        ((if negE then ['-'] else []) ++ (d₂ :: (eds' ++ (w ++ r)))))
      (pos + (if neg then 1 else 0) + (d :: ip').length)
      (by cases up <;> rfl) (by cases up <;> rfl)
    have hexp : expPartP
        ⟨pos + (if neg then 1 else 0) + (d :: ip').length,
          (if up then 'E' else 'e') ::
            ((if negE then ['-'] else []) ++ (d₂ :: (eds' ++ (w ++ r))))⟩ =
        .ok true ((if negE then some '-' else none), intFold (d₂ :: eds'))
          ⟨pos + (if neg then 1 else 0) + (d :: ip').length + 1 +
            (if negE then 1 else 0) + 1 + eds'.length + w.length, r⟩ := by
      have := expPartP_tok up negE d₂ eds' w r
        (pos + (if neg then 1 else 0) + (d :: ip').length) hexdig hw hrW hwrD
      simpa [List.append_assoc] using this
    have h₄ := optionalP_some hexp
    have h₅ := spacesP_none
      (pos + (if neg then 1 else 0) + (d :: ip').length + 1 +
        (if negE then 1 else 0) + 1 + eds'.length + w.length) hrW
    have G := numberP_glue h₁ h₂ h₃ h₄ h₅
    have hstream : renderNum ⟨neg, d :: ip', none, some (up, negE, d₂ :: eds')⟩ ++ w ++ r =
        (if neg then ['-'] else []) ++
          (d :: (ip' ++ ((if up then 'E' else 'e') ::
            ((if negE then ['-'] else []) ++ (d₂ :: (eds' ++ (w ++ r))))))) := by
      simp [renderNum, List.append_assoc]
    rw [hstream, G]
    simp only [Reply.ok.injEq, PState.mk.injEq]
    refine ⟨by simp, ?_, ?_, trivial⟩
    · simp [numVal, mantissa, signedIp, hs1, hs2, ge_iff_le, ite_mul]
    · cases neg <;> cases negE <;> simp [renderNum] <;> omega
  -- Case B: fraction present, no exponent.
  · have h₁ : optionalP (charP '-')
        ⟨pos, (if neg then ['-'] else []) ++ (d :: (ip' ++ ('.' :: (ds ++ (w ++ r)))))⟩ =
        .ok neg (if neg then some '-' else none)
          ⟨pos + (if neg then 1 else 0), d :: (ip' ++ ('.' :: (ds ++ (w ++ r))))⟩ := by
      have := optSign neg
        ((d :: ip') ++ ('.' :: (ds ++ (w ++ r)))) pos
        (by
          simp only [List.cons_append, headNe]
          simp [ne_of_class (x := '-') hd0 (by decide)])
      simpa using this
    have h₂ : intPartP
        ⟨pos + (if neg then 1 else 0), d :: (ip' ++ ('.' :: (ds ++ (w ++ r))))⟩ =
        .ok true (ipVal (d :: ip'))
          ⟨pos + (if neg then 1 else 0) + (d :: ip').length,
            '.' :: (ds ++ (w ++ r))⟩ := by
      have := intPartP_tok (d :: ip') ('.' :: (ds ++ (w ++ r)))
        (pos + (if neg then 1 else 0)) hdig hz hne rfl rfl
      simpa using this
    have h₃ : withP (optionalP (charP '.')) fractionalP
        ⟨pos + (if neg then 1 else 0) + (d :: ip').length,
          '.' :: (ds ++ (w ++ r))⟩ =
        .ok true (fracFold ds)
          ⟨pos + (if neg then 1 else 0) + (d :: ip').length + 1 + ds.length,
            w ++ r⟩ := by
      have := fracP_dot ds (w ++ r)
        (pos + (if neg then 1 else 0) + (d :: ip').length) hfrac hwrD
      simpa using this
    have h₄ := optionalP_none (α := Option Char × Int)
      (expPartP_fail (pos + (if neg then 1 else 0) + (d :: ip').length + 1 + ds.length)
        hwrE hwrEU)
    have h₅ := spacesP_append
      (pos + (if neg then 1 else 0) + (d :: ip').length + 1 + ds.length) hw hrW
    have G := numberP_glue h₁ h₂ h₃ h₄ h₅
    have hstream :
        renderNum ⟨neg, d :: ip', some ds, none⟩ ++ w ++ r =
          (if neg then ['-'] else []) ++ (d :: (ip' ++ ('.' :: (ds ++ (w ++ r))))) := by
      simp [renderNum, List.append_assoc]
    rw [hstream, G]
    simp only [Reply.ok.injEq, PState.mk.injEq]
    refine ⟨by simp, ?_, ?_, trivial⟩
    · simp [numVal, mantissa, signedIp, hs1, ge_iff_le]
    · cases neg <;> simp [renderNum] <;> omega
  -- Case A: fraction and exponent present.
  · simp only [Bool.and_eq_true, Bool.not_eq_true'] at hex
    obtain ⟨hexne, hexdig⟩ := hex
    cases eds with
    | nil => simp at hexne
    | cons d₂ eds' =>
    have hs2 : (if negE then some '-' else (none : Option Char)).isSome = negE := by
      cases negE <;> rfl
    have h₁ : optionalP (charP '-')
        ⟨pos, (if neg then ['-'] else []) ++
          (d :: (ip' ++ ('.' :: (ds ++ ((if up then 'E' else 'e') ::
            ((if negE then ['-'] else []) ++ (d₂ :: (eds' ++ (w ++ r)))))))))⟩ =
        .ok neg (if neg then some '-' else none)
          ⟨pos + (if neg then 1 else 0),
            d :: (ip' ++ ('.' :: (ds ++ ((if up then 'E' else 'e') ::
              ((if negE then ['-'] else []) ++ (d₂ :: (eds' ++ (w ++ r))))))))⟩ := by
      have := optSign neg
        ((d :: ip') ++ ('.' :: (ds ++ ((if up then 'E' else 'e') ::
          ((if negE then ['-'] else []) ++ (d₂ :: (eds' ++ (w ++ r)))))))) pos
        (by
          simp only [List.cons_append, headNe]
          simp [ne_of_class (x := '-') hd0 (by decide)])
      simpa using this
    have h₂ : intPartP
        ⟨pos + (if neg then 1 else 0),
          d :: (ip' ++ ('.' :: (ds ++ ((if up then 'E' else 'e') ::
            ((if negE then ['-'] else []) ++ (d₂ :: (eds' ++ (w ++ r))))))))⟩ =
        .ok true (ipVal (d :: ip'))
          ⟨pos + (if neg then 1 else 0) + (d :: ip').length,
            '.' :: (ds ++ ((if up then 'E' else 'e') ::
              ((if negE then ['-'] else []) ++ (d₂ :: (eds' ++ (w ++ r))))))⟩ := by
      have := intPartP_tok (d :: ip')
        ('.' :: (ds ++ ((if up then 'E' else 'e') ::
          ((if negE then ['-'] else []) ++ (d₂ :: (eds' ++ (w ++ r)))))))
        (pos + (if neg then 1 else 0)) hdig hz hne rfl rfl
      simpa using this
    have h₃ : withP (optionalP (charP '.')) fractionalP
        ⟨pos + (if neg then 1 else 0) + (d :: ip').length,
          '.' :: (ds ++ ((if up then 'E' else 'e') ::
            ((if negE then ['-'] else []) ++ (d₂ :: (eds' ++ (w ++ r))))))⟩ =
        .ok true (fracFold ds)
          ⟨pos + (if neg then 1 else 0) + (d :: ip').length + 1 + ds.length,
            (if up then 'E' else 'e') ::
              ((if negE then ['-'] else []) ++ (d₂ :: (eds' ++ (w ++ r))))⟩ := by
      have := fracP_dot ds
        ((if up then 'E' else 'e') ::
          ((if negE then ['-'] else []) ++ (d₂ :: (eds' ++ (w ++ r)))))
        (pos + (if neg then 1 else 0) + (d :: ip').length) hfrac
        (by cases up <;> rfl)
      simpa using this
    have hexp : expPartP
        ⟨pos + (if neg then 1 else 0) + (d :: ip').length + 1 + ds.length,
          (if up then 'E' else 'e') ::
            ((if negE then ['-'] else []) ++ (d₂ :: (eds' ++ (w ++ r))))⟩ =
        .ok true ((if negE then some '-' else none), intFold (d₂ :: eds'))
          ⟨pos + (if neg then 1 else 0) + (d :: ip').length + 1 + ds.length + 1 +
            (if negE then 1 else 0) + 1 + eds'.length + w.length, r⟩ := by
      have := expPartP_tok up negE d₂ eds' w r
        (pos + (if neg then 1 else 0) + (d :: ip').length + 1 + ds.length)
        hexdig hw hrW hwrD
      simpa [List.append_assoc] using this
    have h₄ := optionalP_some hexp
    have h₅ := spacesP_none
      (pos + (if neg then 1 else 0) + (d :: ip').length + 1 + ds.length + 1 +
        (if negE then 1 else 0) + 1 + eds'.length + w.length) hrW
    have G := numberP_glue h₁ h₂ h₃ h₄ h₅
    have hstream :
        renderNum ⟨neg, d :: ip', some ds, some (up, negE, d₂ :: eds')⟩ ++ w ++ r =
          (if neg then ['-'] else []) ++
            (d :: (ip' ++ ('.' :: (ds ++ ((if up then 'E' else 'e') ::
              ((if negE then ['-'] else []) ++ (d₂ :: (eds' ++ (w ++ r))))))))) := by
      simp [renderNum, List.append_assoc]
    rw [hstream, G]
    simp only [Reply.ok.injEq, PState.mk.injEq]
    refine ⟨by simp, ?_, ?_, trivial⟩
    · simp [numVal, mantissa, signedIp, hs1, hs2, ge_iff_le, ite_mul]
    · cases neg <;> cases negE <;> simp [renderNum] <;> omega

end JsonCombine

namespace JsonCombine

/-- One character of a string body: raw (neither `"` nor `\`) or an
escape sequence `\c`. -/
inductive Esc where
  | raw : Char → Esc
  | esc : Char → Esc

def wfEsc : Esc → Bool
  | .raw c => !(c == '"') && !(c == '\\')
  | .esc c => (escMap c).isSome

def renderEsc : Esc → List Char
  | .raw c => [c]
  | .esc c => ['\\', c]

/-- The character a body element denotes after unescaping. -/
def escVal : Esc → Char
  | .raw c => c
  | .esc c => (escMap c).getD ' '

def renderEscs : List Esc → List Char
  | [] => []
  | e :: es => renderEsc e ++ renderEscs es

def escVals : List Esc → List Char
  | [] => []
  | e :: es => escVal e :: escVals es

theorem jsonCharP_esc {e : Esc} {l : List Char} (pos : Nat)
    (he : wfEsc e = true) :
    jsonCharP ⟨pos, renderEsc e ++ l⟩ =
      .ok true (escVal e) ⟨pos + (renderEsc e).length, l⟩ := by
  cases e with
  | raw c =>
    simp only [wfEsc, Bool.and_eq_true, Bool.not_eq_true'] at he
    simp [renderEsc, escVal, jsonCharP, he.1, he.2]
  | esc c =>
    simp only [wfEsc] at he
    obtain ⟨v, hv⟩ := Option.isSome_iff_exists.mp he
    simp [renderEsc, escVal, jsonCharP, hv]

theorem renderEsc_len_pos (e : Esc) : 1 ≤ (renderEsc e).length := by
  cases e <;> simp [renderEsc]

theorem manyAux_escs :
    ∀ (es : List Esc) {l : List Char} (pos fuel : Nat),
      es.all wfEsc = true → (renderEscs es).length < fuel →
      manyAux jsonCharP fuel ⟨pos, renderEscs es ++ '"' :: l⟩ =
        .ok (!(es.isEmpty)) (escVals es)
          ⟨pos + (renderEscs es).length, '"' :: l⟩ := by
  intro es
  induction es with
  | nil =>
    intro l pos fuel _ hf
    cases fuel with
    | zero => omega
    | succ f => simp [manyAux, jsonCharP, renderEscs, escVals]
  | cons e es' ih =>
    intro l pos fuel hwf hf
    cases fuel with
    | zero => omega
    | succ f =>
      simp only [List.all_cons, Bool.and_eq_true] at hwf
      have hchar := jsonCharP_esc (l := renderEscs es' ++ '"' :: l) pos hwf.1
      have hlen := renderEsc_len_pos e
      have hrec := ih (l := l) (pos + (renderEsc e).length) f hwf.2
        (by simp only [renderEscs, List.length_append] at hf ⊢; omega)
      simp only [renderEscs, List.append_assoc, manyAux, hchar, hrec]
      simp only [Reply.ok.injEq, PState.mk.injEq, escVals, List.isEmpty_cons,
        Bool.true_or, Bool.not_false, List.length_append]
      refine ⟨trivial, trivial, by omega, trivial⟩

theorem jsonStringP_render (es : List Esc) (w l : List Char) (pos : Nat)
    (hwf : es.all wfEsc = true) (hw : wsOk w = true)
    (hl : notWSHead l = true) :
    jsonStringP ⟨pos, '"' :: (renderEscs es ++ ('"' :: (w ++ l)))⟩ =
      .ok true (String.mk (escVals es))
        ⟨pos + 1 + (renderEscs es).length + 1 + w.length, l⟩ := by
  have h1 := charP_ok '"' pos (renderEscs es ++ ('"' :: (w ++ l)))
  have h2 : manyP jsonCharP ⟨pos + 1, renderEscs es ++ ('"' :: (w ++ l))⟩ =
      .ok (!(es.isEmpty)) (escVals es)
        ⟨pos + 1 + (renderEscs es).length, '"' :: (w ++ l)⟩ := by
    apply manyAux_escs es (pos + 1) _ hwf
    simp [List.length_append]
    omega
  have h3 : charP '"' ⟨pos + 1 + (renderEscs es).length, '"' :: (w ++ l)⟩ =
      .ok true '"' ⟨pos + 1 + (renderEscs es).length + 1, w ++ l⟩ :=
    charP_ok '"' _ (w ++ l)
  have hclose := lexP_ok h3 hw hl
  have h4 := withP_ok h1 h2
  have h5 := skipP_ok h4 hclose
  have h6 := mapP_ok String.mk h5
  have h7 := expectedP_ok "string" h6
  simpa [jsonStringP, betweenP] using h7

theorem lexLit {β : Type} (f : Unit → β) {t w l : List Char} (pos : Nat)
    (hne : t.isEmpty = false) (hw : wsOk w = true)
    (hl : notWSHead l = true) :
    lexP (mapP f (pstringP t)) ⟨pos, t ++ (w ++ l)⟩ =
      .ok true (f ()) ⟨pos + t.length + w.length, l⟩ := by
  have h1 := pstringP_ok t (w ++ l) pos
  have h2 := mapP_ok f h1
  have h3 := lexP_ok h2 hw hl
  simpa [hne] using h3

end JsonCombine

namespace JsonCombine

mutual
/-- A JSON document together with the whitespace inserted around its
tokens: every token carries the (arbitrary) whitespace run following
it, commas and colons carry theirs.  Rendering a document produces the
exact character stream fed to the parser. -/
inductive Doc where
  | num : NumTok → List Char → Doc
  | str : List Esc → List Char → Doc
  | tru : List Char → Doc
  | fls : List Char → Doc
  | nul : List Char → Doc
  | arr : List Char → Items → List Char → Doc
  | obj : List Char → Mems → List Char → Doc

/-- Array elements: empty, or a first element with a comma-separated
tail. -/
inductive Items where
  | inil : Items
  | icons : Doc → ITail → Items

/-- Further array elements, each preceded by a comma and the whitespace
after it. -/
inductive ITail where
  | tnil : ITail
  | tcons : List Char → Doc → ITail → ITail

/-- Object members: empty, or a first member with a comma-separated
tail. -/
inductive Mems where
  | mnil : Mems
  | mcons : Memb → MTail → Mems

/-- Further object members, each preceded by a comma and the whitespace
after it. -/
inductive MTail where
  | mtnil : MTail
  | mtcons : List Char → Memb → MTail → MTail

/-- One object member: key body, whitespace after the key's closing
quote, whitespace after the colon, value. -/
inductive Memb where
  | mk : List Esc → List Char → List Char → Doc → Memb
end

mutual
def renderD : Doc → List Char
  | .num t w => renderNum t ++ w
  | .str es w => '"' :: (renderEscs es ++ ('"' :: w))
  | .tru w => 't' :: 'r' :: 'u' :: 'e' :: w
  | .fls w => 'f' :: 'a' :: 'l' :: 's' :: 'e' :: w
  | .nul w => 'n' :: 'u' :: 'l' :: 'l' :: w
  | .arr w0 es w1 => '[' :: (w0 ++ (renderItems es ++ (']' :: w1)))
  | .obj w0 fs w1 => '\x7b' :: (w0 ++ (renderMems fs ++ ('\x7d' :: w1)))

def renderItems : Items → List Char
  | .inil => []
  | .icons d t => renderD d ++ renderITail t

def renderITail : ITail → List Char
  | .tnil => []
  | .tcons cw d t => ',' :: (cw ++ (renderD d ++ renderITail t))

def renderMemb : Memb → List Char
  | .mk k wk wc v =>
    '"' :: (renderEscs k ++ ('"' :: (wk ++ (':' :: (wc ++ renderD v)))))

def renderMems : Mems → List Char
  | .mnil => []
  | .mcons f t => renderMemb f ++ renderMTail t

def renderMTail : MTail → List Char
  | .mtnil => []
  | .mtcons cw f t => ',' :: (cw ++ (renderMemb f ++ renderMTail t))
end

mutual
def denoteD : Doc → Value
  | .num t _ => .num (numVal t)
  | .str es _ => .str (String.mk (escVals es))
  | .tru _ => .bool true
  | .fls _ => .bool false
  | .nul _ => .null
  | .arr _ es _ => .arr (denoteItems es)
  | .obj _ fs _ => .obj (buildMap (denoteMems fs))

def denoteItems : Items → List Value
  | .inil => []
  | .icons d t => denoteD d :: denoteITail t

def denoteITail : ITail → List Value
  | .tnil => []
  | .tcons _ d t => denoteD d :: denoteITail t

def denoteMemb : Memb → String × Value
  | .mk k _ _ v => (String.mk (escVals k), denoteD v)

def denoteMems : Mems → List (String × Value)
  | .mnil => []
  | .mcons f t => denoteMemb f :: denoteMTail t

def denoteMTail : MTail → List (String × Value)
  | .mtnil => []
  | .mtcons _ f t => denoteMemb f :: denoteMTail t
end

mutual
def wfD : Doc → Bool
  | .num t w => wfNum t && wsOk w
  | .str es w => es.all wfEsc && wsOk w
  | .tru w => wsOk w
  | .fls w => wsOk w
  | .nul w => wsOk w
  | .arr w0 es w1 => wsOk w0 && wfItems es && wsOk w1
  | .obj w0 fs w1 => wsOk w0 && wfMems fs && wsOk w1

def wfItems : Items → Bool
  | .inil => true
  | .icons d t => wfD d && wfITail t

def wfITail : ITail → Bool
  | .tnil => true
  | .tcons cw d t => wsOk cw && wfD d && wfITail t

def wfMemb : Memb → Bool
  | .mk k wk wc v => k.all wfEsc && wsOk wk && wsOk wc && wfD v

def wfMems : Mems → Bool
  | .mnil => true
  | .mcons f t => wfMemb f && wfMTail t

def wfMTail : MTail → Bool
  | .mtnil => true
  | .mtcons cw f t => wsOk cw && wfMemb f && wfMTail t
end

mutual
def depthD : Doc → Nat
  | .num _ _ => 0
  | .str _ _ => 0
  | .tru _ => 0
  | .fls _ => 0
  | .nul _ => 0
  | .arr _ es _ => depthItems es + 1
  | .obj _ fs _ => depthMems fs + 1

def depthItems : Items → Nat
  | .inil => 0
  | .icons d t => max (depthD d) (depthITail t)

def depthITail : ITail → Nat
  | .tnil => 0
  | .tcons _ d t => max (depthD d) (depthITail t)

def depthMemb : Memb → Nat
  | .mk _ _ _ v => depthD v

def depthMems : Mems → Nat
  | .mnil => 0
  | .mcons f t => max (depthMemb f) (depthMTail t)

def depthMTail : MTail → Nat
  | .mtnil => 0
  | .mtcons _ f t => max (depthMemb f) (depthMTail t)
end

end JsonCombine

namespace JsonCombine

theorem strBranch_fail {l : List Char} {c : Char} (pos : Nat)
    (h : (c == '"') = false) :
    strBranch ⟨pos, c :: l⟩ = .err false ⟨pos, ["string"]⟩ := by
  simp [strBranch, jsonStringP, expectedP, mapP, betweenP, skipP, withP,
    andP, charP, satisfyP, h]

theorem strBranch_nil (pos : Nat) :
    strBranch ⟨pos, []⟩ = .err false ⟨pos, ["string"]⟩ := by
  simp [strBranch, jsonStringP, expectedP, mapP, betweenP, skipP, withP,
    andP, charP, satisfyP]

theorem objBranch_fail {pv : Parser Value} {l : List Char} {c : Char}
    (pos : Nat) (h : (c == '\x7b') = false) :
    objectP pv ⟨pos, c :: l⟩ = .err false ⟨pos, ["object"]⟩ := by
  simp [objectP, expectedP, mapP, betweenP, skipP, withP, andP, lexP,
    charP, satisfyP, h]

theorem objBranch_nil (pv : Parser Value) (pos : Nat) :
    objectP pv ⟨pos, []⟩ = .err false ⟨pos, ["object"]⟩ := by
  simp [objectP, expectedP, mapP, betweenP, skipP, withP, andP, lexP,
    charP, satisfyP]

theorem arrBranch_fail {pv : Parser Value} {l : List Char} {c : Char}
    (pos : Nat) (h : (c == '[') = false) :
    arrayP pv ⟨pos, c :: l⟩ = .err false ⟨pos, [String.mk ['[']]⟩ := by
  simp [arrayP, mapP, betweenP, skipP, withP, andP, lexP, charP,
    expectedP, satisfyP, h]

theorem numBranch_fail {l : List Char} {c : Char} (pos : Nat)
    (h1 : (c == '-') = false) (h3 : c.isDigit = false) :
    numBranch ⟨pos, c :: l⟩ = .err false ⟨pos, ["number"]⟩ := by
  have h2 : (c == '0') = false := bne_of_pred h3 (by decide)
  simp [numBranch, numberP, expectedP, lexP, skipP, withP, andP, mapP,
    optionalP, orElseP, intPartP, integerP, many1P, charP, satisfyP,
    digitP, mergeE, h1, h2, h3]

theorem falseBranch_fail {l : List Char} {c : Char} (pos : Nat)
    (h : ('f' == c) = false) :
    falseBranch ⟨pos, c :: l⟩ = .err false ⟨pos, ["false"]⟩ := by
  simp [falseBranch, lexP, skipP, mapP, andP, pstringP_fail pos l h,
    strFalseLit]

theorem trueBranch_fail {l : List Char} {c : Char} (pos : Nat)
    (h : ('t' == c) = false) :
    trueBranch ⟨pos, c :: l⟩ = .err false ⟨pos, ["true"]⟩ := by
  simp [trueBranch, lexP, skipP, mapP, andP, pstringP_fail pos l h,
    strTrueLit]

/-- The first character of a well-formed number token, with the
character-class facts the dispatch needs. -/
theorem renderNum_head {t : NumTok} (ht : wfNum t = true) :
    ∃ c l', renderNum t = c :: l' ∧ isWS c = false ∧ (c == '"') = false ∧
      (c == '\x7b') = false ∧ (c == '[') = false := by
  obtain ⟨neg, ip, frac, ex⟩ := t
  cases neg with
  | true =>
    rcases frac with _ | ds <;> rcases ex with _ | ⟨up, negE, eds⟩ <;>
      exact ⟨'-', _, rfl, rfl, rfl, rfl, rfl⟩
  | false =>
    simp only [wfNum, Bool.and_eq_true] at ht
    obtain ⟨⟨⟨⟨hne, hdig⟩, _⟩, _⟩, _⟩ := ht
    rw [Bool.not_eq_true'] at hne
    cases ip with
    | nil => simp at hne
    | cons d ip' =>
      simp only [List.all_cons, Bool.and_eq_true] at hdig
      rcases frac with _ | ds <;> rcases ex with _ | ⟨up, negE, eds⟩ <;>
        exact ⟨d, _, rfl, digit_not_ws hdig.1, ne_of_class hdig.1 (by decide),
          ne_of_class hdig.1 (by decide), ne_of_class hdig.1 (by decide)⟩

/-- A well-formed rendering never starts with whitespace. -/
theorem renderD_head {d : Doc} (hd : wfD d = true) (X : List Char) :
    notWSHead (renderD d ++ X) = true := by
  cases d with
  | num t w =>
    have ht : wfNum t = true := by
      simp only [wfD, Bool.and_eq_true] at hd
      exact hd.1
    obtain ⟨c, l', hc, hws, _, _, _⟩ := renderNum_head ht
    simp [renderD, hc, notWSHead, hws]
  | str es w => simp [renderD, notWSHead, isWS]
  | tru w => simp [renderD, notWSHead, isWS]
  | fls w => simp [renderD, notWSHead, isWS]
  | nul w => simp [renderD, notWSHead, isWS]
  | arr w0 es w1 => simp [renderD, notWSHead, isWS]
  | obj w0 fs w1 => simp [renderD, notWSHead, isWS]

theorem close_stopOk {rest : List Char} (h : closeHead rest = true) :
    stopOk rest = true := by
  cases rest with
  | nil => rfl
  | cons c t =>
    simp only [closeHead, Bool.or_eq_true, beq_iff_eq] at h
    rcases h with h | h <;> subst h <;> rfl

theorem close_notWSHead {rest : List Char} (h : closeHead rest = true) :
    notWSHead rest = true :=
  (stop_head_facts (close_stopOk h)).1

theorem itail_stopOk {ts : ITail} {rest : List Char}
    (h : closeHead rest = true) :
    stopOk (renderITail ts ++ rest) = true := by
  cases ts with
  | tnil => simpa [renderITail] using close_stopOk h
  | tcons cw d t => rfl

theorem mtail_stopOk {ts : MTail} {rest : List Char}
    (h : closeHead rest = true) :
    stopOk (renderMTail ts ++ rest) = true := by
  cases ts with
  | mtnil => simpa [renderMTail] using close_stopOk h
  | mtcons cw f t => rfl

end JsonCombine

namespace JsonCombine

/-- Induction hypothesis of the fuel induction: at fuel `m` the value
parser accepts every rendered well-formed document of depth below `m`,
consuming exactly its rendering. -/
def ParseOK (m : Nat) : Prop :=
  ∀ (d : Doc) (pos : Nat) (rest : List Char),
    wfD d = true → depthD d < m → stopOk rest = true →
    jsonValueAux m ⟨pos, renderD d ++ rest⟩ =
      .ok true (denoteD d) ⟨pos + (renderD d).length, rest⟩

def itemsNE : Items → Bool
  | .inil => false
  | .icons _ _ => true

def itailNE : ITail → Bool
  | .tnil => false
  | .tcons _ _ _ => true

def memsNE : Mems → Bool
  | .mnil => false
  | .mcons _ _ => true

def mtailNE : MTail → Bool
  | .mtnil => false
  | .mtcons _ _ _ => true

theorem sep_fail_close {β : Type} {q : Parser β} {c : Char}
    {t : List Char} (pos : Nat) (h : (c == ',') = false) :
    withP (lexP (charP ',')) q ⟨pos, c :: t⟩ =
      .err false ⟨pos, [String.mk [',']]⟩ := by
  simp [withP, mapP, andP, lexP, skipP, charP, expectedP, satisfyP, h]

theorem manyAux_itail {m : Nat} (IH : ParseOK m) :
    ∀ (ts : ITail) (rest : List Char) (pos fuel : Nat),
      wfITail ts = true → depthITail ts < m → closeHead rest = true →
      (renderITail ts).length < fuel →
      manyAux (withP (lexP (charP ',')) (jsonValueAux m)) fuel
          ⟨pos, renderITail ts ++ rest⟩ =
        .ok (itailNE ts) (denoteITail ts)
          ⟨pos + (renderITail ts).length, rest⟩
  | .tnil, rest, pos, fuel => by
    intro _ _ hc hf
    cases fuel with
    | zero => omega
    | succ f =>
      cases rest with
      | nil => simp [closeHead] at hc
      | cons c t =>
        simp only [closeHead, Bool.or_eq_true, beq_iff_eq] at hc
        have hsep : withP (lexP (charP ',')) (jsonValueAux m) ⟨pos, c :: t⟩ =
            .err false ⟨pos, [String.mk [',']]⟩ := by
          rcases hc with h | h <;> subst h <;>
            exact sep_fail_close pos (by decide)
        simp [renderITail, manyAux, hsep, itailNE, denoteITail]
  | .tcons cw d' ts', rest, pos, fuel => by
    intro hwf hdep hc hf
    cases fuel with
    | zero =>
      simp only [renderITail, List.length_cons] at hf
      omega
    | succ f =>
      simp only [wfITail, Bool.and_eq_true] at hwf
      obtain ⟨⟨hcw, hwd⟩, hwts⟩ := hwf
      simp only [depthITail] at hdep
      have hcomma := charP_ok ','
        pos (cw ++ (renderD d' ++ (renderITail ts' ++ rest)))
      have hlex := lexP_ok hcomma hcw (renderD_head hwd _)
      have hval := IH d' (pos + 1 + cw.length) (renderITail ts' ++ rest) hwd
        (by omega) (itail_stopOk hc)
      have hw := withP_ok hlex hval
      have hrec := manyAux_itail IH ts' rest
        (pos + 1 + cw.length + (renderD d').length) f hwts (by omega) hc
        (by
          simp only [renderITail, List.length_cons, List.length_append] at hf ⊢
          omega)
      simp only [renderITail, List.cons_append, List.append_assoc]
      simp only [manyAux, hw, hrec]
      simp only [Reply.ok.injEq, PState.mk.injEq, itailNE, denoteITail,
        Bool.or_true, Bool.true_or, List.length_cons, List.length_append]
      refine ⟨trivial, trivial, by omega, trivial⟩

theorem sepBy_items {k : Nat} (IH : ParseOK (k + 1)) :
    ∀ (es : Items) (rest : List Char) (pos : Nat),
      wfItems es = true → depthItems es < k + 1 → closeHead rest = true →
      sepByP (jsonValueAux (k + 1)) (lexP (charP ','))
          ⟨pos, renderItems es ++ rest⟩ =
        .ok (itemsNE es) (denoteItems es)
          ⟨pos + (renderItems es).length, rest⟩ := by
  intro es rest pos hwf hdep hc
  cases es with
  | inil =>
    have hfail := jsonValueAux_stop k pos (close_stopOk hc)
    simp [renderItems, sepByP, hfail, itemsNE, denoteItems]
  | icons d' ts' =>
    simp only [wfItems, Bool.and_eq_true] at hwf
    obtain ⟨hwd, hwts⟩ := hwf
    simp only [depthItems] at hdep
    have hval := IH d' pos (renderITail ts' ++ rest) hwd (by omega)
      (itail_stopOk hc)
    have hrec : manyP (withP (lexP (charP ',')) (jsonValueAux (k + 1)))
        ⟨pos + (renderD d').length, renderITail ts' ++ rest⟩ =
        .ok (itailNE ts') (denoteITail ts')
          ⟨pos + (renderD d').length + (renderITail ts').length, rest⟩ := by
      apply manyAux_itail IH ts' rest _ _ hwts (by omega) hc
      simp [List.length_append]
      omega
    simp only [renderItems, List.append_assoc, sepByP, hval, hrec]
    simp only [Reply.ok.injEq, PState.mk.injEq, itemsNE, denoteItems,
      Bool.true_or, List.length_append]
    refine ⟨trivial, trivial, by omega, trivial⟩

end JsonCombine

namespace JsonCombine

theorem fieldP_fail {pv : Parser Value} {l : List Char} {c : Char}
    (pos : Nat) (h : (c == '"') = false) :
    fieldP pv ⟨pos, c :: l⟩ = .err false ⟨pos, ["string"]⟩ := by
  simp [fieldP, mapP, andP, jsonStringP, expectedP, betweenP, skipP,
    withP, charP, satisfyP, h]

theorem membP_render {m : Nat} (IH : ParseOK m) (f : Memb)
    (rest : List Char) (pos : Nat) (hwf : wfMemb f = true)
    (hdep : depthMemb f < m) (hstop : stopOk rest = true) :
    fieldP (jsonValueAux m) ⟨pos, renderMemb f ++ rest⟩ =
      .ok true (denoteMemb f) ⟨pos + (renderMemb f).length, rest⟩ := by
  obtain ⟨k, wk, wc, v⟩ := f
  simp only [wfMemb, Bool.and_eq_true] at hwf
  obtain ⟨⟨⟨hk, hwk⟩, hwc⟩, hv⟩ := hwf
  simp only [depthMemb] at hdep
  have hkey := jsonStringP_render k wk
    (':' :: (wc ++ (renderD v ++ rest))) pos hk hwk rfl
  have hcolon := charP_ok ':'
    (pos + 1 + (renderEscs k).length + 1 + wk.length)
    (wc ++ (renderD v ++ rest))
  have hlexc := lexP_ok hcolon hwc (renderD_head hv rest)
  have hval := IH v
    (pos + 1 + (renderEscs k).length + 1 + wk.length + 1 + wc.length)
    rest hv hdep hstop
  have hinner := andP_ok hlexc hval
  have houter := andP_ok hkey hinner
  have hmap := mapP_ok
    (fun t : String × Char × Value => (t.1, t.2.2)) houter
  have hshape : renderMemb (Memb.mk k wk wc v) ++ rest =
      '"' :: (renderEscs k ++ ('"' :: (wk ++ (':' :: (wc ++ (renderD v ++ rest)))))) := by
    simp [renderMemb, List.append_assoc]
  rw [hshape]
  simp only [fieldP] at hmap ⊢
  rw [hmap]
  simp only [Reply.ok.injEq, PState.mk.injEq, denoteMemb, renderMemb,
    List.length_cons, List.length_append]
  refine ⟨by simp, trivial, by omega, trivial⟩

theorem manyAux_mtail {m : Nat} (IH : ParseOK m) :
    ∀ (ts : MTail) (rest : List Char) (pos fuel : Nat),
      wfMTail ts = true → depthMTail ts < m → closeHead rest = true →
      (renderMTail ts).length < fuel →
      manyAux (withP (lexP (charP ',')) (fieldP (jsonValueAux m))) fuel
          ⟨pos, renderMTail ts ++ rest⟩ =
        .ok (mtailNE ts) (denoteMTail ts)
          ⟨pos + (renderMTail ts).length, rest⟩
  | .mtnil, rest, pos, fuel => by
    intro _ _ hc hf
    cases fuel with
    | zero => omega
    | succ f =>
      cases rest with
      | nil => simp [closeHead] at hc
      | cons c t =>
        simp only [closeHead, Bool.or_eq_true, beq_iff_eq] at hc
        have hsep : withP (lexP (charP ','))
            (fieldP (jsonValueAux m)) ⟨pos, c :: t⟩ =
            .err false ⟨pos, [String.mk [',']]⟩ := by
          rcases hc with h | h <;> subst h <;>
            exact sep_fail_close pos (by decide)
        simp [renderMTail, manyAux, hsep, mtailNE, denoteMTail]
  | .mtcons cw f' ts', rest, pos, fuel => by
    intro hwf hdep hc hf
    cases fuel with
    | zero =>
      simp only [renderMTail, List.length_cons] at hf
      omega
    | succ fl =>
      simp only [wfMTail, Bool.and_eq_true] at hwf
      obtain ⟨⟨hcw, hwff⟩, hwts⟩ := hwf
      simp only [depthMTail] at hdep
      have hmembHead : notWSHead
          (renderMemb f' ++ (renderMTail ts' ++ rest)) = true := by
        obtain ⟨k, wk, wc, v⟩ := f'
        simp [renderMemb, notWSHead, isWS]
      have hcomma := charP_ok ','
        pos (cw ++ (renderMemb f' ++ (renderMTail ts' ++ rest)))
      have hlex := lexP_ok hcomma hcw hmembHead
      have hval := membP_render IH f' (renderMTail ts' ++ rest)
        (pos + 1 + cw.length) hwff (by omega) (mtail_stopOk hc)
      have hw := withP_ok hlex hval
      have hrec := manyAux_mtail IH ts' rest
        (pos + 1 + cw.length + (renderMemb f').length) fl hwts (by omega) hc
        (by
          simp only [renderMTail, List.length_cons, List.length_append] at hf ⊢
          omega)
      simp only [renderMTail, List.cons_append, List.append_assoc]
      simp only [manyAux, hw, hrec]
      simp only [Reply.ok.injEq, PState.mk.injEq, mtailNE, denoteMTail,
        Bool.or_true, Bool.true_or, List.length_cons, List.length_append]
      refine ⟨trivial, trivial, by omega, trivial⟩

theorem sepBy_mems {k : Nat} (IH : ParseOK (k + 1)) :
    ∀ (fs : Mems) (rest : List Char) (pos : Nat),
      wfMems fs = true → depthMems fs < k + 1 → closeHead rest = true →
      sepByP (fieldP (jsonValueAux (k + 1))) (lexP (charP ','))
          ⟨pos, renderMems fs ++ rest⟩ =
        .ok (memsNE fs) (denoteMems fs)
          ⟨pos + (renderMems fs).length, rest⟩ := by
  intro fs rest pos hwf hdep hc
  cases fs with
  | mnil =>
    have hfail : fieldP (jsonValueAux (k + 1)) ⟨pos, rest⟩ =
        .err false ⟨pos, ["string"]⟩ := by
      cases rest with
      | nil => simp [closeHead] at hc
      | cons c t =>
        simp only [closeHead, Bool.or_eq_true, beq_iff_eq] at hc
        rcases hc with h | h <;> subst h <;>
          exact fieldP_fail pos (by decide)
    simp [renderMems, sepByP, hfail, memsNE, denoteMems]
  | mcons f' ts' =>
    simp only [wfMems, Bool.and_eq_true] at hwf
    obtain ⟨hwff, hwts⟩ := hwf
    simp only [depthMems] at hdep
    have hval := membP_render IH f' (renderMTail ts' ++ rest) pos hwff
      (by omega) (mtail_stopOk hc)
    have hrec : manyP (withP (lexP (charP ',')) (fieldP (jsonValueAux (k + 1))))
        ⟨pos + (renderMemb f').length, renderMTail ts' ++ rest⟩ =
        .ok (mtailNE ts') (denoteMTail ts')
          ⟨pos + (renderMemb f').length + (renderMTail ts').length, rest⟩ := by
      apply manyAux_mtail IH ts' rest _ _ hwts (by omega) hc
      simp [List.length_append]
      omega
    simp only [renderMems, List.append_assoc, sepByP, hval, hrec]
    simp only [Reply.ok.injEq, PState.mk.injEq, memsNE, denoteMems,
      Bool.true_or, List.length_append]
    refine ⟨trivial, trivial, by omega, trivial⟩

end JsonCombine

namespace JsonCombine

theorem items_head {es : Items} {Y : List Char} (h : wfItems es = true)
    (hY : notWSHead Y = true) : notWSHead (renderItems es ++ Y) = true := by
  cases es with
  | inil => simpa [renderItems] using hY
  | icons d' ts' =>
    simp only [wfItems, Bool.and_eq_true] at h
    simpa [renderItems, List.append_assoc] using renderD_head h.1 _

theorem mems_head {fs : Mems} {Y : List Char} (h : wfMems fs = true)
    (hY : notWSHead Y = true) : notWSHead (renderMems fs ++ Y) = true := by
  cases fs with
  | mnil => simpa [renderMems] using hY
  | mcons f' ts' =>
    obtain ⟨k, wk, wc, v⟩ := f'
    simp [renderMems, renderMemb, notWSHead, isWS]

theorem jsonValueAux_succ (n : Nat) :
    jsonValueAux (n + 1) =
      orElseP strBranch
        (orElseP (objectP (jsonValueAux n))
          (orElseP (arrayP (jsonValueAux n))
            (orElseP numBranch
              (orElseP falseBranch (orElseP trueBranch nullBranch))))) := rfl

theorem jsonValueAux_render : ∀ (n : Nat), ParseOK n := by
  intro n
  induction n with
  | zero =>
    intro d pos rest hwf hdep hstop
    omega
  | succ m ih =>
    intro d pos rest hwf hdep hstop
    cases d with
    | str es w =>
      simp only [wfD, Bool.and_eq_true] at hwf
      obtain ⟨hk, hw⟩ := hwf
      have hshape : renderD (Doc.str es w) ++ rest =
          '"' :: (renderEscs es ++ ('"' :: (w ++ rest))) := by
        simp [renderD, List.append_assoc]
      have hsucc : strBranch ⟨pos, renderD (Doc.str es w) ++ rest⟩ =
          .ok true (Value.str (String.mk (escVals es)))
            ⟨pos + 1 + (renderEscs es).length + 1 + w.length, rest⟩ := by
        rw [hshape]
        exact mapP_ok Value.str
          (jsonStringP_render es w rest pos hk hw (stop_head_facts hstop).1)
      have e1 := orElseP_ok
        (q := orElseP (objectP (jsonValueAux m))
          (orElseP (arrayP (jsonValueAux m))
            (orElseP numBranch
              (orElseP falseBranch (orElseP trueBranch nullBranch))))) hsucc
      rw [jsonValueAux_succ]
      rw [e1]
      simp only [Reply.ok.injEq, PState.mk.injEq, denoteD, renderD,
        List.length_cons, List.length_append]
      refine ⟨by simp, by simp, by omega, by simp⟩
    | num t w =>
      simp only [wfD, Bool.and_eq_true] at hwf
      obtain ⟨ht, hw⟩ := hwf
      obtain ⟨c, l', hcons, hcws, hcq, hcb, hck⟩ := renderNum_head ht
      have hshape : renderD (Doc.num t w) ++ rest = c :: (l' ++ w ++ rest) := by
        simp [renderD, hcons, List.append_assoc]
      have hstr : strBranch ⟨pos, renderD (Doc.num t w) ++ rest⟩ =
          .err false ⟨pos, ["string"]⟩ := by
        rw [hshape]; exact strBranch_fail pos hcq
      have hobj : objectP (jsonValueAux m) ⟨pos, renderD (Doc.num t w) ++ rest⟩ =
          .err false ⟨pos, ["object"]⟩ := by
        rw [hshape]; exact objBranch_fail pos hcb
      have harr : arrayP (jsonValueAux m) ⟨pos, renderD (Doc.num t w) ++ rest⟩ =
          .err false ⟨pos, [String.mk ['[']]⟩ := by
        rw [hshape]; exact arrBranch_fail pos hck
      have hnum : numBranch ⟨pos, renderD (Doc.num t w) ++ rest⟩ =
          .ok true (Value.num (numVal t))
            ⟨pos + (renderNum t).length + w.length, rest⟩ := by
        have h := mapP_ok Value.num (numberP_render pos ht hw hstop)
        simpa [renderD, numBranch] using h
      have e4 := orElseP_ok
        (q := orElseP falseBranch (orElseP trueBranch nullBranch)) hnum
      have e3 := orElseP_err_empty_ok _ _ _ _ _ _ _ harr e4
      have e2 := orElseP_err_empty_ok _ _ _ _ _ _ _ hobj e3
      have e1 := orElseP_err_empty_ok _ _ _ _ _ _ _ hstr e2
      rw [jsonValueAux_succ]
      rw [e1]
      simp only [Reply.ok.injEq, PState.mk.injEq, denoteD, renderD,
        List.length_append]
      refine ⟨by simp, by simp, by omega, by simp⟩
    | tru w =>
      have hw : wsOk w = true := hwf
      have hshape : renderD (Doc.tru w) ++ rest =
          't' :: ('r' :: 'u' :: 'e' :: (w ++ rest)) := by
        simp [renderD]
      have hstr : strBranch ⟨pos, renderD (Doc.tru w) ++ rest⟩ =
          .err false ⟨pos, ["string"]⟩ := by
        rw [hshape]; exact strBranch_fail pos (by decide)
      have hobj : objectP (jsonValueAux m) ⟨pos, renderD (Doc.tru w) ++ rest⟩ =
          .err false ⟨pos, ["object"]⟩ := by
        rw [hshape]; exact objBranch_fail pos (by decide)
      have harr : arrayP (jsonValueAux m) ⟨pos, renderD (Doc.tru w) ++ rest⟩ =
          .err false ⟨pos, [String.mk ['[']]⟩ := by
        rw [hshape]; exact arrBranch_fail pos (by decide)
      have hnum : numBranch ⟨pos, renderD (Doc.tru w) ++ rest⟩ =
          .err false ⟨pos, ["number"]⟩ := by
        rw [hshape]; exact numBranch_fail pos (by decide) (by decide)
      have hfls : falseBranch ⟨pos, renderD (Doc.tru w) ++ rest⟩ =
          .err false ⟨pos, ["false"]⟩ := by
        rw [hshape]; exact falseBranch_fail pos (by decide)
      have htru : trueBranch ⟨pos, renderD (Doc.tru w) ++ rest⟩ =
          .ok true (Value.bool true) ⟨pos + 4 + w.length, rest⟩ := by
        rw [hshape]
        have h := lexLit (fun _ => Value.bool true)
          (t := ['t', 'r', 'u', 'e']) pos rfl hw (stop_head_facts hstop).1
        simpa [trueBranch] using h
      have e6 := orElseP_ok (q := nullBranch) htru
      have e5 := orElseP_err_empty_ok _ _ _ _ _ _ _ hfls e6
      have e4 := orElseP_err_empty_ok _ _ _ _ _ _ _ hnum e5
      have e3 := orElseP_err_empty_ok _ _ _ _ _ _ _ harr e4
      have e2 := orElseP_err_empty_ok _ _ _ _ _ _ _ hobj e3
      have e1 := orElseP_err_empty_ok _ _ _ _ _ _ _ hstr e2
      rw [jsonValueAux_succ]
      rw [e1]
      simp only [Reply.ok.injEq, PState.mk.injEq, denoteD, renderD,
        List.length_cons]
      refine ⟨by simp, by simp, by omega, by simp⟩
    | fls w =>
      have hw : wsOk w = true := hwf
      have hshape : renderD (Doc.fls w) ++ rest =
          'f' :: ('a' :: 'l' :: 's' :: 'e' :: (w ++ rest)) := by
        simp [renderD]
      have hstr : strBranch ⟨pos, renderD (Doc.fls w) ++ rest⟩ =
          .err false ⟨pos, ["string"]⟩ := by
        rw [hshape]; exact strBranch_fail pos (by decide)
      have hobj : objectP (jsonValueAux m) ⟨pos, renderD (Doc.fls w) ++ rest⟩ =
          .err false ⟨pos, ["object"]⟩ := by
        rw [hshape]; exact objBranch_fail pos (by decide)
      have harr : arrayP (jsonValueAux m) ⟨pos, renderD (Doc.fls w) ++ rest⟩ =
          .err false ⟨pos, [String.mk ['[']]⟩ := by
        rw [hshape]; exact arrBranch_fail pos (by decide)
      have hnum : numBranch ⟨pos, renderD (Doc.fls w) ++ rest⟩ =
          .err false ⟨pos, ["number"]⟩ := by
        rw [hshape]; exact numBranch_fail pos (by decide) (by decide)
      have hfls : falseBranch ⟨pos, renderD (Doc.fls w) ++ rest⟩ =
          .ok true (Value.bool false) ⟨pos + 5 + w.length, rest⟩ := by
        rw [hshape]
        have h := lexLit (fun _ => Value.bool false)
          (t := ['f', 'a', 'l', 's', 'e']) pos rfl hw (stop_head_facts hstop).1
        simpa [falseBranch] using h
      have e5 := orElseP_ok
        (q := orElseP trueBranch nullBranch) hfls
      have e4 := orElseP_err_empty_ok _ _ _ _ _ _ _ hnum e5
      have e3 := orElseP_err_empty_ok _ _ _ _ _ _ _ harr e4
      have e2 := orElseP_err_empty_ok _ _ _ _ _ _ _ hobj e3
      have e1 := orElseP_err_empty_ok _ _ _ _ _ _ _ hstr e2
      rw [jsonValueAux_succ]
      rw [e1]
      simp only [Reply.ok.injEq, PState.mk.injEq, denoteD, renderD,
        List.length_cons]
      refine ⟨by simp, by simp, by omega, by simp⟩
    | nul w =>
      have hw : wsOk w = true := hwf
      have hshape : renderD (Doc.nul w) ++ rest =
          'n' :: ('u' :: 'l' :: 'l' :: (w ++ rest)) := by
        simp [renderD]
      have hstr : strBranch ⟨pos, renderD (Doc.nul w) ++ rest⟩ =
          .err false ⟨pos, ["string"]⟩ := by
        rw [hshape]; exact strBranch_fail pos (by decide)
      have hobj : objectP (jsonValueAux m) ⟨pos, renderD (Doc.nul w) ++ rest⟩ =
          .err false ⟨pos, ["object"]⟩ := by
        rw [hshape]; exact objBranch_fail pos (by decide)
      have harr : arrayP (jsonValueAux m) ⟨pos, renderD (Doc.nul w) ++ rest⟩ =
          .err false ⟨pos, [String.mk ['[']]⟩ := by
        rw [hshape]; exact arrBranch_fail pos (by decide)
      have hnum : numBranch ⟨pos, renderD (Doc.nul w) ++ rest⟩ =
          .err false ⟨pos, ["number"]⟩ := by
        rw [hshape]; exact numBranch_fail pos (by decide) (by decide)
      have hfls : falseBranch ⟨pos, renderD (Doc.nul w) ++ rest⟩ =
          .err false ⟨pos, ["false"]⟩ := by
        rw [hshape]; exact falseBranch_fail pos (by decide)
      have htru : trueBranch ⟨pos, renderD (Doc.nul w) ++ rest⟩ =
          .err false ⟨pos, ["true"]⟩ := by
        rw [hshape]; exact trueBranch_fail pos (by decide)
      have hnul : nullBranch ⟨pos, renderD (Doc.nul w) ++ rest⟩ =
          .ok true Value.null ⟨pos + 4 + w.length, rest⟩ := by
        rw [hshape]
        have h := lexLit (fun _ => Value.null)
          (t := ['n', 'u', 'l', 'l']) pos rfl hw (stop_head_facts hstop).1
        simpa [nullBranch] using h
      have e6 := orElseP_err_empty_ok _ _ _ _ _ _ _ htru hnul
      have e5 := orElseP_err_empty_ok _ _ _ _ _ _ _ hfls e6
      have e4 := orElseP_err_empty_ok _ _ _ _ _ _ _ hnum e5
      have e3 := orElseP_err_empty_ok _ _ _ _ _ _ _ harr e4
      have e2 := orElseP_err_empty_ok _ _ _ _ _ _ _ hobj e3
      have e1 := orElseP_err_empty_ok _ _ _ _ _ _ _ hstr e2
      rw [jsonValueAux_succ]
      rw [e1]
      simp only [Reply.ok.injEq, PState.mk.injEq, denoteD, renderD,
        List.length_cons]
      refine ⟨by simp, by simp, by omega, by simp⟩
    | arr w0 es w1 =>
      simp only [wfD, Bool.and_eq_true] at hwf
      obtain ⟨⟨hw0, hwes⟩, hw1⟩ := hwf
      simp only [depthD] at hdep
      obtain ⟨k, rfl⟩ : ∃ k, m = k + 1 := ⟨m - 1, by omega⟩
      have hshape : renderD (Doc.arr w0 es w1) ++ rest =
          '[' :: (w0 ++ (renderItems es ++ (']' :: (w1 ++ rest)))) := by
        simp [renderD, List.append_assoc]
      have hstr : strBranch ⟨pos, renderD (Doc.arr w0 es w1) ++ rest⟩ =
          .err false ⟨pos, ["string"]⟩ := by
        rw [hshape]; exact strBranch_fail pos (by decide)
      have hobj : objectP (jsonValueAux (k + 1))
          ⟨pos, renderD (Doc.arr w0 es w1) ++ rest⟩ =
          .err false ⟨pos, ["object"]⟩ := by
        rw [hshape]; exact objBranch_fail pos (by decide)
      have hopen := lexP_ok
        (charP_ok '[' pos (w0 ++ (renderItems es ++ (']' :: (w1 ++ rest)))))
        hw0 (items_head hwes rfl)
      have hitems := sepBy_items ih es (']' :: (w1 ++ rest))
        (pos + 1 + w0.length) hwes (by omega) rfl
      have hclose := lexP_ok
        (charP_ok ']'
          (pos + 1 + w0.length + (renderItems es).length) (w1 ++ rest))
        hw1 (stop_head_facts hstop).1
      have hb := withP_ok hopen hitems
      have hsk := skipP_ok hb hclose
      have hmap := mapP_ok Value.arr hsk
      have harr : arrayP (jsonValueAux (k + 1))
          ⟨pos, renderD (Doc.arr w0 es w1) ++ rest⟩ =
          .ok true (Value.arr (denoteItems es))
            ⟨pos + 1 + w0.length + (renderItems es).length + 1 + w1.length,
              rest⟩ := by
        rw [hshape]
        simpa [arrayP, betweenP] using hmap
      have e3 := orElseP_ok
        (q := orElseP numBranch
          (orElseP falseBranch (orElseP trueBranch nullBranch))) harr
      have e2 := orElseP_err_empty_ok _ _ _ _ _ _ _ hobj e3
      have e1 := orElseP_err_empty_ok _ _ _ _ _ _ _ hstr e2
      rw [jsonValueAux_succ]
      rw [e1]
      simp only [Reply.ok.injEq, PState.mk.injEq, denoteD, renderD,
        List.length_cons, List.length_append]
      refine ⟨by simp, by simp, by omega, by simp⟩
    | obj w0 fs w1 =>
      simp only [wfD, Bool.and_eq_true] at hwf
      obtain ⟨⟨hw0, hwfs⟩, hw1⟩ := hwf
      simp only [depthD] at hdep
      obtain ⟨k, rfl⟩ : ∃ k, m = k + 1 := ⟨m - 1, by omega⟩
      have hshape : renderD (Doc.obj w0 fs w1) ++ rest =
          '\x7b' :: (w0 ++ (renderMems fs ++ ('\x7d' :: (w1 ++ rest)))) := by
        simp [renderD, List.append_assoc]
      have hstr : strBranch ⟨pos, renderD (Doc.obj w0 fs w1) ++ rest⟩ =
          .err false ⟨pos, ["string"]⟩ := by
        rw [hshape]; exact strBranch_fail pos (by decide)
      have hopen := lexP_ok
        (charP_ok '\x7b' pos
          (w0 ++ (renderMems fs ++ ('\x7d' :: (w1 ++ rest)))))
        hw0 (mems_head hwfs rfl)
      have hmems := sepBy_mems ih fs ('\x7d' :: (w1 ++ rest))
        (pos + 1 + w0.length) hwfs (by omega) rfl
      have hclose := lexP_ok
        (charP_ok '\x7d'
          (pos + 1 + w0.length + (renderMems fs).length) (w1 ++ rest))
        hw1 (stop_head_facts hstop).1
      have hb := withP_ok hopen hmems
      have hsk := skipP_ok hb hclose
      have hmap := mapP_ok
        (fun fs' : List (String × Value) => Value.obj (buildMap fs')) hsk
      have hobjS : objectP (jsonValueAux (k + 1))
          ⟨pos, renderD (Doc.obj w0 fs w1) ++ rest⟩ =
          .ok true (Value.obj (buildMap (denoteMems fs)))
            ⟨pos + 1 + w0.length + (renderMems fs).length + 1 + w1.length,
              rest⟩ := by
        rw [hshape]
        have h2 := expectedP_ok "object" hmap
        simpa [objectP, betweenP] using h2
      have e2 := orElseP_ok
        (q := orElseP (arrayP (jsonValueAux (k + 1)))
          (orElseP numBranch
            (orElseP falseBranch (orElseP trueBranch nullBranch)))) hobjS
      have e1 := orElseP_err_empty_ok _ _ _ _ _ _ _ hstr e2
      rw [jsonValueAux_succ]
      rw [e1]
      simp only [Reply.ok.injEq, PState.mk.injEq, denoteD, renderD,
        List.length_cons, List.length_append]
      refine ⟨by simp, by simp, by omega, by simp⟩

end JsonCombine

namespace JsonCombine

mutual
theorem depthD_le : ∀ (d : Doc), depthD d ≤ (renderD d).length
  | .num t w => by simp [depthD]
  | .str es w => by simp [depthD]
  | .tru w => by simp [depthD]
  | .fls w => by simp [depthD]
  | .nul w => by simp [depthD]
  | .arr w0 es w1 => by
    have h := depthItems_le es
    simp only [depthD, renderD, List.length_cons, List.length_append]
    omega
  | .obj w0 fs w1 => by
    have h := depthMems_le fs
    simp only [depthD, renderD, List.length_cons, List.length_append]
    omega

theorem depthItems_le : ∀ (es : Items), depthItems es ≤ (renderItems es).length
  | .inil => by simp [depthItems, renderItems]
  | .icons d t => by
    have h1 := depthD_le d
    have h2 := depthITail_le t
    simp only [depthItems, renderItems, List.length_append]
    omega

theorem depthITail_le : ∀ (ts : ITail), depthITail ts ≤ (renderITail ts).length
  | .tnil => by simp [depthITail, renderITail]
  | .tcons cw d t => by
    have h1 := depthD_le d
    have h2 := depthITail_le t
    simp only [depthITail, renderITail, List.length_cons, List.length_append]
    omega

theorem depthMemb_le : ∀ (f : Memb), depthMemb f ≤ (renderMemb f).length
  | .mk k wk wc v => by
    have h := depthD_le v
    simp only [depthMemb, renderMemb, List.length_cons, List.length_append]
    omega

theorem depthMems_le : ∀ (fs : Mems), depthMems fs ≤ (renderMems fs).length
  | .mnil => by simp [depthMems, renderMems]
  | .mcons f t => by
    have h1 := depthMemb_le f
    have h2 := depthMTail_le t
    simp only [depthMems, renderMems, List.length_append]
    omega

theorem depthMTail_le : ∀ (ts : MTail), depthMTail ts ≤ (renderMTail ts).length
  | .mtnil => by simp [depthMTail, renderMTail]
  | .mtcons cw f t => by
    have h1 := depthMemb_le f
    have h2 := depthMTail_le t
    simp only [depthMTail, renderMTail, List.length_cons, List.length_append]
    omega
end

mutual
/-- Erase every whitespace slot of a document, leaving its token
content: two documents are "the same document up to inserted
whitespace" exactly when their `stripD` images coincide. -/
def stripD : Doc → Doc
  | .num t _ => .num t []
  | .str es _ => .str es []
  | .tru _ => .tru []
  | .fls _ => .fls []
  | .nul _ => .nul []
  | .arr _ es _ => .arr [] (stripItems es) []
  | .obj _ fs _ => .obj [] (stripMems fs) []

def stripItems : Items → Items
  | .inil => .inil
  | .icons d t => .icons (stripD d) (stripITail t)

def stripITail : ITail → ITail
  | .tnil => .tnil
  | .tcons _ d t => .tcons [] (stripD d) (stripITail t)

def stripMemb : Memb → Memb
  | .mk k _ _ v => .mk k [] [] (stripD v)

def stripMems : Mems → Mems
  | .mnil => .mnil
  | .mcons f t => .mcons (stripMemb f) (stripMTail t)

def stripMTail : MTail → MTail
  | .mtnil => .mtnil
  | .mtcons _ f t => .mtcons [] (stripMemb f) (stripMTail t)
end

mutual
theorem denote_stripD : ∀ (d : Doc), denoteD (stripD d) = denoteD d
  | .num t w => rfl
  | .str es w => rfl
  | .tru w => rfl
  | .fls w => rfl
  | .nul w => rfl
  | .arr w0 es w1 => by
    simp only [stripD, denoteD, denote_stripItems es]
  | .obj w0 fs w1 => by
    simp only [stripD, denoteD, denote_stripMems fs]

theorem denote_stripItems :
    ∀ (es : Items), denoteItems (stripItems es) = denoteItems es
  | .inil => rfl
  | .icons d t => by
    simp only [stripItems, denoteItems, denote_stripD d, denote_stripITail t]

theorem denote_stripITail :
    ∀ (ts : ITail), denoteITail (stripITail ts) = denoteITail ts
  | .tnil => rfl
  | .tcons cw d t => by
    simp only [stripITail, denoteITail, denote_stripD d, denote_stripITail t]

theorem denote_stripMemb :
    ∀ (f : Memb), denoteMemb (stripMemb f) = denoteMemb f
  | .mk k wk wc v => by
    simp only [stripMemb, denoteMemb, denote_stripD v]

theorem denote_stripMems :
    ∀ (fs : Mems), denoteMems (stripMems fs) = denoteMems fs
  | .mnil => rfl
  | .mcons f t => by
    simp only [stripMems, denoteMems, denote_stripMemb f, denote_stripMTail t]

theorem denote_stripMTail :
    ∀ (ts : MTail), denoteMTail (stripMTail ts) = denoteMTail ts
  | .mtnil => rfl
  | .mtcons cw f t => by
    simp only [stripMTail, denoteMTail, denote_stripMemb f, denote_stripMTail t]
end

end JsonCombine

namespace JsonCombine

/-- The value component of a reply, for comparing parses. -/
def replyValue : Reply Value → Option Value
  | .ok _ v _ => some v
  | .err _ _ => none

theorem parseJson_render {w : List Char} {d : Doc} (hw : wsOk w = true)
    (hd : wfD d = true) :
    parseJson (String.mk (w ++ renderD d)) =
      .ok true (denoteD d) ⟨w.length + (renderD d).length, []⟩ := by
  have hnw : notWSHead (renderD d) = true := by
    have h := renderD_head hd []
    simpa using h
  have h1 := spacesP_append (w := w) (r := renderD d) 0 hw hnw
  have hdep : depthD d < (w ++ renderD d).length + 1 := by
    have h2 := depthD_le d
    simp only [List.length_append]
    omega
  have hval := jsonValueAux_render ((w ++ renderD d).length + 1) d
    (0 + w.length) [] hd hdep rfl
  rw [List.append_nil] at hval
  have hcomb := withP_ok h1 hval
  show jsonValueP ((w ++ renderD d).length + 1) ⟨0, w ++ renderD d⟩ = _
  simp only [jsonValueP]
  rw [hcomb]
  simp only [Reply.ok.injEq, PState.mk.injEq]
  refine ⟨by simp, trivial, by omega, trivial⟩

/-- C4: whitespace insensitivity.  `Doc` is a JSON document carrying
explicit whitespace slots after every token, comma and colon (and
before the first token, handled by the entry point's leading skip);
`renderD` yields the exact character stream, `stripD` erases the
whitespace slots, and `denoteD` is the document's value, which never
depends on the slots.  First conjunct: the value parser accepts every
well-formed rendered document whatever whitespace its slots hold,
consuming all of it and returning the document's value.  Second
conjunct: two renderings that agree after erasing whitespace — i.e.
that differ only in inserted spaces, tabs or newlines around tokens,
commas and colons — always parse to the same value. -/
theorem c4_whitespace_insensitivity :
    (∀ (w : List Char) (d : Doc), wsOk w = true → wfD d = true →
        parseJson (String.mk (w ++ renderD d)) =
          .ok true (denoteD d) ⟨w.length + (renderD d).length, []⟩) ∧
      (∀ (w₁ w₂ : List Char) (d₁ d₂ : Doc),
        wsOk w₁ = true → wsOk w₂ = true → wfD d₁ = true → wfD d₂ = true →
        stripD d₁ = stripD d₂ →
        replyValue (parseJson (String.mk (w₁ ++ renderD d₁))) =
            replyValue (parseJson (String.mk (w₂ ++ renderD d₂))) ∧
          replyValue (parseJson (String.mk (w₁ ++ renderD d₁))) =
            some (denoteD d₁)) := by
  refine ⟨fun w d hw hd => parseJson_render hw hd,
    fun w₁ w₂ d₁ d₂ hw₁ hw₂ hd₁ hd₂ hstrip => ?_⟩
  have p1 := parseJson_render hw₁ hd₁
  have p2 := parseJson_render hw₂ hd₂
  have hd12 : denoteD d₁ = denoteD d₂ := by
    rw [← denote_stripD d₁, hstrip, denote_stripD d₂]
  rw [p1, p2]
  simp [replyValue, hd12]

/-- Example document for the C4 witness: an object with whitespace in
assorted slots, denoting `{"a": [1, ""]}`. -/
def c4exDoc : Doc :=
  .obj [' ']
    (.mcons
      (.mk [.raw 'a'] [' '] ['\t']
        (.arr []
          (.icons (.num ⟨false, ['1'], none, none⟩ [' '])
            (.tcons ['\n'] (.str [] []) .tnil))
          [' ']))
      .mtnil)
    [' ']

/-- C4 (witness): the theorem applied at a concrete whitespace-laden
document, and at the same document with all whitespace erased. -/
theorem c4_witness :
    (parseJson (String.mk (([' '] : List Char) ++ renderD c4exDoc)) =
        .ok true (denoteD c4exDoc)
          ⟨([' '] : List Char).length + (renderD c4exDoc).length, []⟩) ∧
      (replyValue (parseJson (String.mk (([] : List Char) ++ renderD (stripD c4exDoc)))) =
          replyValue (parseJson (String.mk (([' '] : List Char) ++ renderD c4exDoc))) ∧
        replyValue (parseJson (String.mk (([] : List Char) ++ renderD (stripD c4exDoc)))) =
          some (denoteD (stripD c4exDoc))) :=
  ⟨c4_whitespace_insensitivity.1 [' '] c4exDoc (by decide) (by decide),
    c4_whitespace_insensitivity.2 [] [' '] (stripD c4exDoc) c4exDoc
      (by decide) (by decide) (by decide) (by decide) rfl⟩

end JsonCombine
